import Mathlib

/-!
Verification of the corkboard storage layer (datastore.go).

The development shallowly embeds the schema-migration engine
(`RunMigrations`) and the note store (`getNote`, `setNote`,
`getLatestNotes`) over explicit state.  Filenames and SQL `text` values
are `List Char` (Go compares strings bytewise; on the ASCII alphabet of
migration filenames this coincides with the codepoint order used here).
A migration script's SQL effect is an opaque state transformer
`σ → Option σ`, where `none` models a failing statement; the enclosing
transaction of the Go code then rolls back, which the embedding renders
by leaving the database component unchanged.
-/

/-! ## Characters, byte-lexicographic order, digit strings -/

/-- Byte-lexicographic strict order on character lists, as used by Go
string comparison and by `fs.WalkDir`'s enumeration order (ASCII). -/
def lexLt : List Char → List Char → Bool
  | [], [] => false
  | [], _ :: _ => true
  | _ :: _, [] => false
  | a :: as, b :: bs =>
    if a.toNat < b.toNat then true
    else if b.toNat < a.toNat then false
    else lexLt as bs

/-- ASCII decimal digit, the character class `\d` of Go regexp. -/
def isDigitB (c : Char) : Bool := 48 ≤ c.toNat && c.toNat ≤ 57

/-- Accumulating decimal parse, mirroring `strconv.ParseInt` on an
all-digit string. -/
def natOfDigitsAux : List Char → Nat → Nat
  | [], acc => acc
  | c :: rest, acc => natOfDigitsAux rest (acc * 10 + (c.toNat - 48))

/-- Decimal value of a digit string. -/
def natOfDigits (s : List Char) : Nat := natOfDigitsAux s 0

/-! ## Migration identifiers (struct `migration`) -/

/-- The `migration` struct: a date string and a number. -/
structure migration where
  date : List Char
  number : Nat
deriving DecidableEq, Repr

/-- `func (m1 migration) before(m2 migration) bool`:
`m1.date < m2.date || (m1.date == m2.date && m1.number < m2.number)`. -/
def migration.before (m1 m2 : migration) : Bool :=
  lexLt m1.date m2.date || (decide (m1.date = m2.date) && decide (m1.number < m2.number))

/-- The zero value `migration{}` that initializes `latestMigration`. -/
def zeroMig : migration := ⟨[], 0⟩

/-! ## Filename validation and parsing

`RunMigrations` validates each basename against the regex
`^\d{4}-\d{2}-\d{2}\.\d+\.sql$`, splits it on `.` and parses the
second component with `strconv.ParseInt(_, 10, 32)`. -/

/-- Matches `\d*\.sql$`: a (possibly empty) run of digits followed by
exactly `.sql`. -/
def tailSql : List Char → Bool
  | [] => false
  | c :: rest =>
    if c == '.' then rest == ['s', 'q', 'l']
    else isDigitB c && tailSql rest

/-- Matches `\d+\.sql$` (at least one digit). -/
def numTail : List Char → Bool
  | [] => false
  | c :: rest => isDigitB c && tailSql rest

/-- The filename regex `^\d{4}-\d{2}-\d{2}\.\d+\.sql$`. -/
def validName : List Char → Bool
  | y1 :: y2 :: y3 :: y4 :: a :: mo1 :: mo2 :: b :: d1 :: d2 :: c :: rest =>
    isDigitB y1 && isDigitB y2 && isDigitB y3 && isDigitB y4 &&
    (a == '-') && isDigitB mo1 && isDigitB mo2 && (b == '-') &&
    isDigitB d1 && isDigitB d2 && (c == '.') && numTail rest
  | _ => false

/-- First `.`-separated component of a filename (the date part of
`strings.Split(filename, ".")`). -/
def dateOf (s : List Char) : List Char := s.takeWhile (fun c => c ≠ '.')

/-- Second `.`-separated component of a filename (the number part). -/
def numStrOf (s : List Char) : List Char :=
  ((s.dropWhile (fun c => c ≠ '.')).drop 1).takeWhile (fun c => c ≠ '.')

/-- Identifier encoded by a (valid) filename. -/
def parseName (s : List Char) : migration := ⟨dateOf s, natOfDigits (numStrOf s)⟩

/-- `path.Base`: the part of the path after the last `/`. -/
def baseName (p : List Char) : List Char :=
  p.foldl (fun acc c => if c = '/' then [] else acc ++ [c]) []

/-- `math.MaxInt32`, the upper bound enforced by
`strconv.ParseInt(_, 10, 32)`. -/
def MAX_INT32 : Nat := 2147483647

/-! ## The datastore and migration run -/

/-- The SQL store: the `_migration` ledger table (in insertion order)
plus the state of all other tables, abstracted as `σ`. -/
structure DB (σ : Type) where
  ledger : List migration
  app : σ
deriving Repr

/-- A file of the migration `fs.FS`: its path, and its SQL text as an
opaque effect.  `content = none` models a file whose read fails;
`exec s = none` models SQL that errors when executed against state `s`. -/
structure MigFile (σ : Type) where
  filepath : List Char
  content : Option (σ → Option σ)

/-- Identifier encoded by a file's basename. -/
def fId {σ : Type} (f : MigFile σ) : migration := parseName (baseName f.filepath)

/-- Errors returned by `RunMigrations` (one constructor per
`fmt.Errorf` site that depends on the migration data). -/
inductive MigErr where
  | badFormat (name : List Char)
  | numberTooLarge (name : List Char)
  | duplicate (m : migration)
  | outOfOrderOld (m latest : migration)
  | outOfOrderNew (m latest : migration)
  | readErr (path : List Char)
  | execErr (path : List Char)
  | missing (m : migration)
deriving DecidableEq, Repr

/-- State threaded through the `fs.WalkDir` callback: the
`migrationSet` working map (as an association list), `latestMigration`,
the database, and `migrationsPerformed`. -/
structure WalkSt (σ : Type) where
  set : List (migration × Bool)
  latest : migration
  db : DB σ
  performed : Nat

/-- Result of one callback invocation: continue, or abort the walk.
On `fail` the state at the moment of the error is kept (the Go walk
returns the error upward; the rolled-back transaction leaves the
database unchanged, but `migrationSet`/`latestMigration` updates made
before the failing statement survive). -/
inductive StepRes (σ : Type) where
  | ok (st : WalkSt σ)
  | fail (e : MigErr) (st : WalkSt σ)

/-- Lookup in the `migrationSet` map. -/
def findEntry : List (migration × Bool) → migration → Option Bool
  | [], _ => none
  | p :: rest, m => if p.1 = m then some p.2 else findEntry rest m

/-- `migrationSet[m] = true` for a key already present. -/
def markDone (set : List (migration × Bool)) (m : migration) : List (migration × Bool) :=
  set.map (fun p => if p.1 = m then (p.1, true) else p)

/-- The body of the `fs.WalkDir` callback for one file. -/
def stepFile {σ : Type} (st : WalkSt σ) (f : MigFile σ) : StepRes σ :=
  let filename := baseName f.filepath
  if validName filename then
    if natOfDigits (numStrOf filename) > MAX_INT32 then
      .fail (.numberTooLarge filename) st
    else
      let newMigration : migration := parseName filename
      match findEntry st.set newMigration with
      | some isRun =>
        if isRun then
          .fail (.duplicate newMigration) st
        else if st.latest.before newMigration then
          .fail (.outOfOrderOld newMigration st.latest) st
        else
          .ok { st with set := markDone st.set newMigration }
      | none =>
        if st.latest.before newMigration then
          let set' := st.set ++ [(newMigration, true)]
          match f.content with
          | none => .fail (.readErr f.filepath) { st with set := set', latest := newMigration }
          | some g =>
            match g st.db.app with
            | none => .fail (.execErr f.filepath) { st with set := set', latest := newMigration }
            | some app' =>
              .ok ⟨set', newMigration, ⟨st.db.ledger ++ [newMigration], app'⟩, st.performed + 1⟩
        else
          .fail (.outOfOrderNew newMigration st.latest) st
  else
    .fail (.badFormat filename) st

/-- `fs.WalkDir` over the file list (the caller passes the files in the
order the walk enumerates them: lexicographic by path); aborts at the
first callback error. -/
def walkFiles {σ : Type} (st : WalkSt σ) : List (MigFile σ) → WalkSt σ × Option MigErr
  | [] => (st, none)
  | f :: rest =>
    match stepFile st f with
    | .ok st2 => walkFiles st2 rest
    | .fail e st2 => (st2, some e)

/-- The `rows.Next` loop over `select * from _migration`: builds the
`migrationSet` working map and tracks `latestMigration` via
`justBegun`. -/
def loadLedger : List migration → List (migration × Bool) → Bool → migration →
    List (migration × Bool) × migration
  | [], set, _, latest => (set, latest)
  | m :: rest, set, justBegun, latest =>
    if justBegun then loadLedger rest (set ++ [(m, false)]) false m
    else if latest.before m then loadLedger rest (set ++ [(m, false)]) false m
    else loadLedger rest (set ++ [(m, false)]) false latest

/-- First never-visited entry of the working map, if any (the
`for m, done := range migrationSet` check). -/
def firstUnmatched : List (migration × Bool) → Option migration
  | [] => none
  | (m, done) :: rest => if done then firstUnmatched rest else some m

/-- Walk state at the start of the enumeration. -/
def initWalk {σ : Type} (db : DB σ) : WalkSt σ :=
  let p := loadLedger db.ledger [] true zeroMig
  ⟨p.1, p.2, db, 0⟩

/-- Outcome of a migration run: final store, number of migrations
applied, and the returned error if any. -/
structure RunOut (σ : Type) where
  db : DB σ
  performed : Nat
  err : Option MigErr

/-- `func (ds *Datastore) RunMigrations(migrations fs.FS) error`.
The pragma, `create table if not exists _migration` and the ledger
query are infallible in the embedding; directories are skipped by the
callback, so the input is the list of files in walk order. -/
def RunMigrations {σ : Type} (db : DB σ) (files : List (MigFile σ)) : RunOut σ :=
  let r := walkFiles (initWalk db) files
  match firstUnmatched r.1.set with
  | some m => ⟨r.1.db, r.1.performed, some (.missing m)⟩
  | none => ⟨r.1.db, r.1.performed, r.2⟩

/-- Keys of the working map, in insertion order. -/
def keysOf (set : List (migration × Bool)) : List migration := set.map Prod.fst

/-- All entries whose key occurs among `ids` marked as visited. -/
def markAll (set : List (migration × Bool)) (ids : List migration) :
    List (migration × Bool) :=
  set.map (fun p => if p.1 ∈ ids then (p.1, true) else p)

/-- The identifiers of a file list, in enumeration order, are a strictly
ascending chain starting above `m`. -/
def ascFrom (m : migration) : List migration → Bool
  | [] => true
  | x :: rest => m.before x && ascFrom x rest

/-- Last element of a chain, or the seed for an empty chain. -/
def lastD (d : migration) : List migration → migration
  | [] => d
  | x :: rest => lastD x rest

/-! ## The note store -/

/-- Result constants of `setNote` (`const ( NO_CLOBBER = iota ... )`). -/
def NO_CLOBBER : Nat := 0

/-- `CREATED` result of `setNote`. -/
def CREATED : Nat := 1

/-- `UPDATED` result of `setNote`. -/
def UPDATED : Nat := 2

/-- A row of the `note` table. -/
structure Note where
  name : String
  body : String
  create_time : Nat
  last_viewed : Nat
deriving DecidableEq, Repr

/-- Row lookup by the unique primary key `name`. -/
def findNote : List Note → String → Option Note
  | [], _ => none
  | n :: rest, nm => if n.name = nm then some n else findNote rest nm

/-- `func (ds *Datastore) getNote(name string) ([]byte, bool, error)`:
returns the body and found-flag, and touches `last_viewed` on a hit.
`now` is the wall clock read by `datetime("now")`. -/
def getNote (db : List Note) (now : Nat) (name : String) :
    Option String × Bool × List Note :=
  match findNote db name with
  | none => (none, false, db)
  | some nt =>
    (some nt.body, true,
      db.map (fun n => if n.name = name then { n with last_viewed := now } else n))

/-- `func (ds *Datastore) setNote(name string, body []byte, clobber bool) (int, error)`:
insert; on a UNIQUE-constraint conflict either update the body
(`clobber`) or leave the row untouched.  A fresh row gets
`create_time = last_viewed = now` (the column defaults). -/
def setNote (db : List Note) (now : Nat) (name body : String) (clobber : Bool) :
    Nat × List Note :=
  match findNote db name with
  | none => (CREATED, db ++ [⟨name, body, now, now⟩])
  | some _ =>
    if clobber then
      (UPDATED, db.map (fun n => if n.name = name then { n with body := body } else n))
    else
      (NO_CLOBBER, db)

/-- Stable insertion into a list ascending by `create_time`. -/
def insByTime (x : Note) : List Note → List Note
  | [] => [x]
  | y :: ys => if y.create_time ≤ x.create_time then y :: insByTime x ys else x :: y :: ys

/-- Stable sort ascending by `create_time` (the `order by create_time
asc` of the query). -/
def sortByTime : List Note → List Note
  | [] => []
  | x :: xs => insByTime x (sortByTime xs)

/-- `func (ds *Datastore) getLatestNotes(maxNotes int) ([]string, error)`:
`select (name) from "note" order by create_time asc limit ?`. -/
def getLatestNotes (db : List Note) (maxNotes : Nat) : List String :=
  ((sortByTime db).take maxNotes).map (fun n => n.name)

/-! ## Order lemmas for the byte-lexicographic order -/

theorem char_toNat_inj {c d : Char} (h : c.toNat = d.toNat) : c = d :=
  Char.ext (UInt32.ext h)

theorem lexLt_irrefl (s : List Char) : lexLt s s = false := by
  induction s with
  | nil => rfl
  | cons a as ih => simp [lexLt, ih]

theorem lexLt_trans : ∀ (a b c : List Char),
    lexLt a b = true → lexLt b c = true → lexLt a c = true
  | [], [], _, h1, _ => by simp [lexLt] at h1
  | [], _ :: _, [], _, h2 => by simp [lexLt] at h2
  | [], _ :: _, _ :: _, _, _ => by simp [lexLt]
  | _ :: _, [], _, h1, _ => by simp [lexLt] at h1
  | _ :: _, _ :: _, [], _, h2 => by simp [lexLt] at h2
  | a :: as, b :: bs, c :: cs, h1, h2 => by
    simp only [lexLt] at h1 h2 ⊢
    rcases Nat.lt_trichotomy a.toNat b.toNat with hab | hab | hab
    · rcases Nat.lt_trichotomy b.toNat c.toNat with hbc | hbc | hbc
      · simp [Nat.lt_trans hab hbc]
      · simp [hbc ▸ hab]
      · simp [Nat.lt_asymm hbc, hbc] at h2
    · have hab' : a = b := char_toNat_inj hab
      subst hab'
      simp only [Nat.lt_irrefl, if_false] at h1
      rcases Nat.lt_trichotomy a.toNat c.toNat with hac | hac | hac
      · simp [hac]
      · have hac' : a = c := char_toNat_inj hac
        subst hac'
        simp only [Nat.lt_irrefl, if_false] at h2 ⊢
        exact lexLt_trans as bs cs h1 h2
      · simp [Nat.lt_asymm hac, hac] at h2
    · simp [Nat.lt_asymm hab, hab] at h1

theorem lexLt_eq_of_not_lt : ∀ (a b : List Char),
    lexLt a b = false → lexLt b a = false → a = b
  | [], [], _, _ => rfl
  | [], _ :: _, h1, _ => by simp [lexLt] at h1
  | _ :: _, [], _, h2 => by simp [lexLt] at h2
  | a :: as, b :: bs, h1, h2 => by
    simp only [lexLt] at h1 h2
    rcases Nat.lt_trichotomy a.toNat b.toNat with hab | hab | hab
    · simp [hab] at h1
    · have hab' : a = b := char_toNat_inj hab
      subst hab'
      simp only [Nat.lt_irrefl, if_false] at h1 h2
      rw [lexLt_eq_of_not_lt as bs h1 h2]
    · simp [Nat.lt_asymm hab, hab] at h2

theorem before_irrefl (m : migration) : m.before m = false := by
  simp [migration.before, lexLt_irrefl]

theorem before_trans {m1 m2 m3 : migration}
    (h1 : m1.before m2 = true) (h2 : m2.before m3 = true) : m1.before m3 = true := by
  simp only [migration.before, Bool.or_eq_true, Bool.and_eq_true, decide_eq_true_eq] at h1 h2 ⊢
  rcases h1 with h1 | ⟨hd1, hn1⟩
  · rcases h2 with h2 | ⟨hd2, _⟩
    · exact Or.inl (lexLt_trans _ _ _ h1 h2)
    · exact Or.inl (hd2 ▸ h1)
  · rcases h2 with h2 | ⟨hd2, hn2⟩
    · exact Or.inl (hd1 ▸ h2)
    · exact Or.inr ⟨hd1.trans hd2, Nat.lt_trans hn1 hn2⟩

theorem before_total : ∀ {m1 m2 : migration},
    m1.before m2 = false → m2.before m1 = false → m1 = m2 := by
  rintro ⟨d1, n1⟩ ⟨d2, n2⟩ h1 h2
  by_cases hd : d1 = d2
  · subst hd
    simp [migration.before, lexLt_irrefl] at h1 h2
    have hn : n1 = n2 := by omega
    rw [hn]
  · simp [migration.before, hd, Ne.symm hd] at h1 h2
    exact absurd (lexLt_eq_of_not_lt _ _ h1 h2) hd

theorem before_asym {m1 m2 : migration} (h : m1.before m2 = true) : m2.before m1 = false := by
  cases hb : m2.before m1
  · rfl
  · exact absurd (before_irrefl m1) (by simp [before_trans h hb])

/-! ## Digit strings and decimal values -/

theorem natOfDigitsAux_eq (s : List Char) : ∀ acc : Nat,
    natOfDigitsAux s acc = acc * 10 ^ s.length + natOfDigitsAux s 0 := by
  induction s with
  | nil => intro acc; simp [natOfDigitsAux]
  | cons c r ih =>
    intro acc
    simp only [natOfDigitsAux]
    rw [ih (acc * 10 + (c.toNat - 48)), ih (0 * 10 + (c.toNat - 48))]
    simp only [List.length_cons, Nat.pow_succ]
    ring

theorem natOfDigits_cons (c : Char) (r : List Char) :
    natOfDigits (c :: r) = (c.toNat - 48) * 10 ^ r.length + natOfDigits r := by
  show natOfDigitsAux r (0 * 10 + (c.toNat - 48)) = _
  rw [natOfDigitsAux_eq]
  simp [natOfDigits]

theorem digit_toNat_le {c : Char} (h : isDigitB c = true) :
    48 ≤ c.toNat ∧ c.toNat ≤ 57 := by
  simp [isDigitB] at h
  exact h

theorem natOfDigits_lt_pow : ∀ {s : List Char},
    (∀ c ∈ s, isDigitB c = true) → natOfDigits s < 10 ^ s.length := by
  intro s
  induction s with
  | nil => intro _; simp [natOfDigits, natOfDigitsAux]
  | cons c r ih =>
    intro h
    have hc := digit_toNat_le (h c (List.mem_cons_self c r))
    have hr := ih (fun x hx => h x (List.mem_cons_of_mem c hx))
    rw [natOfDigits_cons, List.length_cons, Nat.pow_succ]
    have hd9 : c.toNat - 48 ≤ 9 := by omega
    have h1 : (c.toNat - 48) * 10 ^ r.length ≤ 9 * 10 ^ r.length :=
      Nat.mul_le_mul_right _ hd9
    omega

theorem digit_val_lt {a b : Char} (ha : isDigitB a = true) (hb : isDigitB b = true)
    (hab : a.toNat < b.toNat) (x y B : Nat) (hx : x < B) :
    (a.toNat - 48) * B + x < (b.toNat - 48) * B + y := by
  have ha' := digit_toNat_le ha
  have hb' := digit_toNat_le hb
  have h1 : a.toNat - 48 + 1 ≤ b.toNat - 48 := by omega
  have h2 : (a.toNat - 48 + 1) * B ≤ (b.toNat - 48) * B := Nat.mul_le_mul_right _ h1
  have h3 : (a.toNat - 48 + 1) * B = (a.toNat - 48) * B + B := by ring
  omega

theorem digitLex : ∀ (n1 n2 : List Char), n1.length = n2.length →
    (∀ c ∈ n1, isDigitB c = true) → (∀ c ∈ n2, isDigitB c = true) →
    (lexLt n1 n2 = true ↔ natOfDigits n1 < natOfDigits n2)
  | [], [], _, _, _ => by simp [lexLt, natOfDigits, natOfDigitsAux]
  | [], _ :: _, h, _, _ => by simp at h
  | _ :: _, [], h, _, _ => by simp at h
  | a :: r1, b :: r2, hlen, h1, h2 => by
    have hlen' : r1.length = r2.length := by simpa using hlen
    have ha := h1 a (List.mem_cons_self a r1)
    have hb := h2 b (List.mem_cons_self b r2)
    have hr1 : natOfDigits r1 < 10 ^ r2.length := by
      rw [← hlen']
      exact natOfDigits_lt_pow (fun x hx => h1 x (List.mem_cons_of_mem a hx))
    have hr2 : natOfDigits r2 < 10 ^ r2.length :=
      natOfDigits_lt_pow (fun x hx => h2 x (List.mem_cons_of_mem b hx))
    rw [natOfDigits_cons, natOfDigits_cons, hlen']
    simp only [lexLt]
    rcases Nat.lt_trichotomy a.toNat b.toNat with hab | hab | hab
    · rw [if_pos hab]
      constructor
      · intro _
        exact digit_val_lt ha hb hab _ _ _ hr1
      · intro _; rfl
    · have hab' : a = b := char_toNat_inj hab
      subst hab'
      rw [if_neg (Nat.lt_irrefl _), if_neg (Nat.lt_irrefl _), Nat.add_lt_add_iff_left]
      exact digitLex r1 r2 hlen' (fun x hx => h1 x (List.mem_cons_of_mem a hx))
        (fun x hx => h2 x (List.mem_cons_of_mem a hx))
    · rw [if_neg (Nat.lt_asymm hab), if_pos hab]
      exact iff_of_false (by simp) (Nat.lt_asymm (digit_val_lt hb ha hab _ _ _ hr2))

/-! ## Byte-lexicographic order and appends -/

theorem lexLt_append_same : ∀ (d a b : List Char),
    lexLt (d ++ a) (d ++ b) = lexLt a b
  | [], _, _ => rfl
  | c :: r, a, b => by
    simp only [List.cons_append, lexLt, Nat.lt_irrefl, if_false]
    exact lexLt_append_same r a b

theorem lexLt_append_of_ne : ∀ (d1 d2 a b : List Char), d1.length = d2.length →
    d1 ≠ d2 → lexLt (d1 ++ a) (d2 ++ b) = lexLt d1 d2
  | [], [], _, _, _, hne => by simp at hne
  | [], _ :: _, _, _, hlen, _ => by simp at hlen
  | _ :: _, [], _, _, hlen, _ => by simp at hlen
  | c1 :: r1, c2 :: r2, a, b, hlen, hne => by
    have hlen' : r1.length = r2.length := by simpa using hlen
    simp only [List.cons_append, lexLt]
    rcases Nat.lt_trichotomy c1.toNat c2.toNat with hc | hc | hc
    · simp [hc]
    · have hc' : c1 = c2 := char_toNat_inj hc
      subst hc'
      have hne' : r1 ≠ r2 := by intro hr; exact hne (by rw [hr])
      simp only [Nat.lt_irrefl, if_false]
      exact lexLt_append_of_ne r1 r2 a b hlen' hne'
    · simp [Nat.lt_asymm hc, hc]

/-! ## Decomposition of valid filenames -/

theorem isDigitB_ne_dot {c : Char} (h : isDigitB c = true) : c ≠ '.' := by
  intro hc
  subst hc
  simp [isDigitB] at h

theorem takeWhile_stop (p : Char → Bool) : ∀ (l1 : List Char) (x : Char) (l2 : List Char),
    (∀ c ∈ l1, p c = true) → p x = false →
    (l1 ++ x :: l2).takeWhile p = l1 ∧ (l1 ++ x :: l2).dropWhile p = x :: l2
  | [], x, l2, _, hx => by simp [List.takeWhile, List.dropWhile, hx]
  | c :: r, x, l2, hall, hx => by
    have hc := hall c (List.mem_cons_self c r)
    have hr := takeWhile_stop p r x l2 (fun a ha => hall a (List.mem_cons_of_mem c ha)) hx
    simp [List.takeWhile, List.dropWhile, hc, hr.1, hr.2]

theorem tailSql_decomp : ∀ {r : List Char}, tailSql r = true →
    ∃ n, r = n ++ ['.', 's', 'q', 'l'] ∧ ∀ c ∈ n, isDigitB c = true := by
  intro r
  induction r with
  | nil => intro h; simp [tailSql] at h
  | cons c rest ih =>
    intro h
    simp only [tailSql] at h
    by_cases hc : c = '.'
    · subst hc
      simp at h
      exact ⟨[], by simp [h], by simp⟩
    · have hc' : (c == '.') = false := by simp [hc]
      rw [hc', if_neg (by simp)] at h
      simp only [Bool.and_eq_true] at h
      obtain ⟨hd, ht⟩ := h
      obtain ⟨n, hn, hdig⟩ := ih ht
      refine ⟨c :: n, by simp [hn], ?_⟩
      intro x hx
      rcases List.mem_cons.mp hx with rfl | hx
      · exact hd
      · exact hdig x hx

theorem numTail_decomp {r : List Char} (h : numTail r = true) :
    ∃ n, r = n ++ ['.', 's', 'q', 'l'] ∧ n ≠ [] ∧ ∀ c ∈ n, isDigitB c = true := by
  cases r with
  | nil => simp [numTail] at h
  | cons c rest =>
    simp only [numTail, Bool.and_eq_true] at h
    obtain ⟨hd, ht⟩ := h
    obtain ⟨n, hn, hdig⟩ := tailSql_decomp ht
    refine ⟨c :: n, by simp [hn], by simp, ?_⟩
    intro x hx
    rcases List.mem_cons.mp hx with rfl | hx
    · exact hd
    · exact hdig x hx

theorem validName_decomp : ∀ {s : List Char}, validName s = true →
    s = dateOf s ++ '.' :: numStrOf s ++ ['.', 's', 'q', 'l'] ∧
    (dateOf s).length = 10 ∧ numStrOf s ≠ [] ∧
    ∀ c ∈ numStrOf s, isDigitB c = true := by
  intro s h
  rcases s with _ | ⟨y1, _ | ⟨y2, _ | ⟨y3, _ | ⟨y4, _ | ⟨a, _ | ⟨mo1, _ | ⟨mo2, _ |
    ⟨b, _ | ⟨d1, _ | ⟨d2, _ | ⟨c, rest⟩⟩⟩⟩⟩⟩⟩⟩⟩⟩⟩ <;>
    simp only [validName, Bool.and_eq_true, beq_iff_eq, Bool.false_eq_true] at h
  obtain ⟨⟨⟨⟨⟨⟨⟨⟨⟨⟨⟨h1, h2⟩, h3⟩, h4⟩, ha⟩, h5⟩, h6⟩, hb⟩, h7⟩, h8⟩, hc⟩, h9⟩ := h
  subst ha; subst hb; subst hc
  obtain ⟨n, hn, hne, hdig⟩ := numTail_decomp h9
  have hDall : ∀ x ∈ ([y1, y2, y3, y4, '-', mo1, mo2, '-', d1, d2] : List Char),
      (fun ch => decide (ch ≠ '.')) x = true := by
    intro x hx
    simp only [List.mem_cons, List.not_mem_nil, or_false] at hx
    rcases hx with rfl | rfl | rfl | rfl | rfl | rfl | rfl | rfl | rfl | rfl
    · simpa using isDigitB_ne_dot h1
    · simpa using isDigitB_ne_dot h2
    · simpa using isDigitB_ne_dot h3
    · simpa using isDigitB_ne_dot h4
    · decide
    · simpa using isDigitB_ne_dot h5
    · simpa using isDigitB_ne_dot h6
    · decide
    · simpa using isDigitB_ne_dot h7
    · simpa using isDigitB_ne_dot h8
  have hnall : ∀ x ∈ n, (fun ch => decide (ch ≠ '.')) x = true := by
    intro x hx
    simpa using isDigitB_ne_dot (hdig x hx)
  have hsplit := takeWhile_stop (fun ch => decide (ch ≠ '.'))
    [y1, y2, y3, y4, '-', mo1, mo2, '-', d1, d2] '.' rest hDall (by decide)
  have hdate : dateOf (y1 :: y2 :: y3 :: y4 :: '-' :: mo1 :: mo2 :: '-' :: d1 :: d2 :: '.' :: rest)
      = [y1, y2, y3, y4, '-', mo1, mo2, '-', d1, d2] := hsplit.1
  have hnsplit := takeWhile_stop (fun ch => decide (ch ≠ '.')) n '.' ['s', 'q', 'l']
    hnall (by decide)
  have hnum : numStrOf (y1 :: y2 :: y3 :: y4 :: '-' :: mo1 :: mo2 :: '-' :: d1 :: d2 :: '.' :: rest)
      = n := by
    show ((List.dropWhile _ _).drop 1).takeWhile _ = n
    rw [show (List.dropWhile (fun ch => decide (ch ≠ '.'))
        (y1 :: y2 :: y3 :: y4 :: '-' :: mo1 :: mo2 :: '-' :: d1 :: d2 :: '.' :: rest))
        = '.' :: rest from hsplit.2]
    rw [List.drop_one, List.tail_cons, hn]
    exact hnsplit.1
  rw [hdate, hnum]
  exact ⟨by rw [hn]; rfl, rfl, hne, hdig⟩

/-! ## Enumeration order versus identifier order (the filename total-order key) -/

theorem lexLt_cons_same (c : Char) (x y : List Char) :
    lexLt (c :: x) (c :: y) = lexLt x y := by
  simp [lexLt]

theorem validName_date_nonempty {s : List Char} (h : validName s = true) :
    dateOf s ≠ [] := by
  obtain ⟨_, hlen, _, _⟩ := validName_decomp h
  intro he
  rw [he] at hlen
  simp at hlen

theorem zeroMig_before {s : List Char} (h : validName s = true) :
    zeroMig.before (parseName s) = true := by
  have hne := validName_date_nonempty h
  have hl : lexLt [] (dateOf s) = true := by
    cases hd : dateOf s with
    | nil => exact absurd hd hne
    | cons c r => simp [lexLt]
  simp [migration.before, zeroMig, parseName, hl]

/-- C1 (amended): for valid filenames whose date components differ or
whose number components have the same digit count, byte-lexicographic
filename order agrees with the `(date, number)` order of the encoded
identifiers. -/
theorem lex_order_agrees_amended (s1 s2 : List Char)
    (h1 : validName s1 = true) (h2 : validName s2 = true)
    (h3 : dateOf s1 ≠ dateOf s2 ∨ (numStrOf s1).length = (numStrOf s2).length) :
    (lexLt s1 s2 = true ↔ (parseName s1).before (parseName s2) = true) := by
  obtain ⟨e1, l1, ne1, dg1⟩ := validName_decomp h1
  obtain ⟨e2, l2, ne2, dg2⟩ := validName_decomp h2
  have e1' : s1 = dateOf s1 ++ (('.' :: numStrOf s1) ++ ['.', 's', 'q', 'l']) := by
    conv_lhs => rw [e1]
    exact List.append_assoc _ _ _
  have e2' : s2 = dateOf s2 ++ (('.' :: numStrOf s2) ++ ['.', 's', 'q', 'l']) := by
    conv_lhs => rw [e2]
    exact List.append_assoc _ _ _
  by_cases hd : dateOf s1 = dateOf s2
  · have hnl : (numStrOf s1).length = (numStrOf s2).length := by
      rcases h3 with h | h
      · exact absurd hd h
      · exact h
    by_cases hn : numStrOf s1 = numStrOf s2
    · have hs : s1 = s2 := by rw [e1, e2, hd, hn]
      rw [hs]
      simp [lexLt_irrefl, before_irrefl]
    · have hlex : lexLt s1 s2 = lexLt (numStrOf s1) (numStrOf s2) := by
        conv_lhs => rw [e1', e2', hd]
        rw [lexLt_append_same]
        rw [show ('.' :: numStrOf s1) ++ ['.', 's', 'q', 'l']
            = '.' :: (numStrOf s1 ++ ['.', 's', 'q', 'l']) from rfl]
        rw [show ('.' :: numStrOf s2) ++ ['.', 's', 'q', 'l']
            = '.' :: (numStrOf s2 ++ ['.', 's', 'q', 'l']) from rfl]
        rw [lexLt_cons_same]
        exact lexLt_append_of_ne _ _ _ _ hnl hn
      have hbef : (parseName s1).before (parseName s2)
          = decide (natOfDigits (numStrOf s1) < natOfDigits (numStrOf s2)) := by
        simp [migration.before, parseName, hd, lexLt_irrefl]
      rw [hlex, hbef]
      rw [digitLex _ _ hnl dg1 dg2]
      simp
  · have hlex : lexLt s1 s2 = lexLt (dateOf s1) (dateOf s2) := by
      conv_lhs => rw [e1', e2']
      exact lexLt_append_of_ne _ _ _ _ (l1.trans l2.symm) hd
    have hbef : (parseName s1).before (parseName s2) = lexLt (dateOf s1) (dateOf s2) := by
      simp [migration.before, parseName, hd]
    rw [hlex, hbef]

theorem lex_order_agrees_amended_witness :
    validName "2020-01-01.0.sql".data = true ∧
    validName "2020-01-02.0.sql".data = true ∧
    (lexLt "2020-01-01.0.sql".data "2020-01-02.0.sql".data = true ↔
      (parseName "2020-01-01.0.sql".data).before (parseName "2020-01-02.0.sql".data) = true) :=
  ⟨by decide, by decide,
    lex_order_agrees_amended _ _ (by decide) (by decide) (Or.inr (by decide))⟩

/-- C1 counterexample: the filenames `2020-01-01.10.sql` and
`2020-01-01.9.sql` are both valid, the first is byte-lexicographically
smaller, yet its identifier `(2020-01-01, 10)` is strictly greater than
`(2020-01-01, 9)` — so lexicographic filename order does not agree with
identifier order. -/
theorem lex_order_disagrees_counterexample :
    validName "2020-01-01.10.sql".data = true ∧
    validName "2020-01-01.9.sql".data = true ∧
    lexLt "2020-01-01.10.sql".data "2020-01-01.9.sql".data = true ∧
    (parseName "2020-01-01.10.sql".data).before (parseName "2020-01-01.9.sql".data) = false ∧
    (parseName "2020-01-01.9.sql".data).before (parseName "2020-01-01.10.sql".data) = true := by
  refine ⟨by decide, by decide, by decide, by decide, by decide⟩

/-! ## Working-map helper lemmas -/

theorem findEntry_append_left {s1 : List (migration × Bool)} {m : migration} {b : Bool}
    (h : findEntry s1 m = some b) (s2 : List (migration × Bool)) :
    findEntry (s1 ++ s2) m = some b := by
  induction s1 with
  | nil => simp [findEntry] at h
  | cons p r ih =>
    simp only [findEntry] at h ⊢
    by_cases hp : p.1 = m
    · simpa [hp] using h
    · rw [if_neg hp] at h ⊢
      exact ih h

theorem findEntry_append_right {s1 : List (migration × Bool)} {m : migration}
    (h : findEntry s1 m = none) (s2 : List (migration × Bool)) :
    findEntry (s1 ++ s2) m = findEntry s2 m := by
  induction s1 with
  | nil => simp
  | cons p r ih =>
    simp only [findEntry] at h ⊢
    by_cases hp : p.1 = m
    · simp [hp] at h
    · rw [if_neg hp] at h ⊢
      exact ih h

theorem findEntry_cons (p : migration × Bool) (r : List (migration × Bool)) (m : migration) :
    findEntry (p :: r) m = if p.1 = m then some p.2 else findEntry r m := rfl

theorem markDone_cons (p : migration × Bool) (r : List (migration × Bool)) (m : migration) :
    markDone (p :: r) m = (if p.1 = m then (p.1, true) else p) :: markDone r m := rfl

theorem findEntry_markDone_self {set : List (migration × Bool)} {m : migration} {b : Bool}
    (h : findEntry set m = some b) : findEntry (markDone set m) m = some true := by
  induction set with
  | nil => simp [findEntry] at h
  | cons p r ih =>
    rw [findEntry_cons] at h
    rw [markDone_cons]
    by_cases hp : p.1 = m
    · rw [if_pos hp, findEntry_cons, if_pos hp]
    · rw [if_neg hp] at h
      rw [if_neg hp, findEntry_cons, if_neg hp]
      exact ih h

theorem findEntry_markDone_other {set : List (migration × Bool)} {m m' : migration}
    (h : m' ≠ m) : findEntry (markDone set m) m' = findEntry set m' := by
  induction set with
  | nil => rfl
  | cons p r ih =>
    rw [markDone_cons, findEntry_cons, findEntry_cons]
    by_cases hp : p.1 = m
    · rw [if_pos hp]
      have hne : p.1 ≠ m' := fun he => h (he.symm.trans hp)
      show (if p.1 = m' then some true else findEntry (markDone r m) m') = _
      rw [if_neg hne, if_neg hne]
      exact ih
    · rw [if_neg hp]
      by_cases hq : p.1 = m'
      · rw [if_pos hq, if_pos hq]
      · rw [if_neg hq, if_neg hq]
        exact ih

theorem keysOf_markDone (set : List (migration × Bool)) (m : migration) :
    keysOf (markDone set m) = keysOf set := by
  induction set with
  | nil => rfl
  | cons p r ih =>
    simp only [keysOf, markDone, List.map_cons] at ih ⊢
    by_cases hp : p.1 = m
    · rw [if_pos hp, hp, ih]
    · rw [if_neg hp, ih]

theorem keysOf_append (s1 s2 : List (migration × Bool)) :
    keysOf (s1 ++ s2) = keysOf s1 ++ keysOf s2 := by
  simp [keysOf]

theorem findEntry_some_mem {set : List (migration × Bool)} {m : migration} {b : Bool}
    (h : findEntry set m = some b) : m ∈ keysOf set := by
  induction set with
  | nil => simp [findEntry] at h
  | cons p r ih =>
    simp only [findEntry] at h
    by_cases hp : p.1 = m
    · simp [keysOf, hp.symm]
    · rw [if_neg hp] at h
      simp only [keysOf, List.map_cons, List.mem_cons]
      exact Or.inr (ih h)

theorem findEntry_mem_isSome {set : List (migration × Bool)} {m : migration}
    (h : m ∈ keysOf set) : ∃ b, findEntry set m = some b := by
  induction set with
  | nil => simp [keysOf] at h
  | cons p r ih =>
    simp only [keysOf, List.map_cons, List.mem_cons] at h
    simp only [findEntry]
    by_cases hp : p.1 = m
    · exact ⟨p.2, by rw [if_pos hp]⟩
    · rw [if_neg hp]
      exact ih (h.resolve_left (fun he => hp he.symm))

theorem findEntry_mapFalse {L : List migration} {m : migration} (h : m ∈ L) :
    findEntry (L.map (fun x => (x, false))) m = some false := by
  induction L with
  | nil => simp at h
  | cons x r ih =>
    simp only [List.map_cons, findEntry]
    by_cases hx : x = m
    · rw [if_pos hx]
    · rw [if_neg hx]
      exact ih ((List.mem_cons.mp h).resolve_left (fun he => hx he.symm))

theorem mem_false_markDone {set : List (migration × Bool)} {m i : migration}
    (h : (m, false) ∈ set) (hne : m ≠ i) : (m, false) ∈ markDone set i := by
  have : (fun p : migration × Bool => if p.1 = i then (p.1, true) else p) (m, false)
      = (m, false) := by simp [hne]
  exact this ▸ List.mem_map_of_mem _ h

theorem firstUnmatched_isSome {set : List (migration × Bool)} {m : migration}
    (h : (m, false) ∈ set) : ∃ m', firstUnmatched set = some m' := by
  induction set with
  | nil => simp at h
  | cons p r ih =>
    simp only [firstUnmatched]
    rcases List.mem_cons.mp h with he | hr
    · rw [← he]
      exact ⟨m, rfl⟩
    · cases hd : p.2
      · exact ⟨p.1, by simp [hd]⟩
      · simpa [hd] using ih hr

theorem firstUnmatched_none {set : List (migration × Bool)}
    (h : firstUnmatched set = none) : ∀ p ∈ set, p.2 = true := by
  induction set with
  | nil => simp
  | cons p r ih =>
    simp only [firstUnmatched] at h
    intro q hq
    cases hd : p.2
    · simp [hd] at h
    · rcases List.mem_cons.mp hq with he | hr
      · rw [he]; exact hd
      · rw [hd, if_pos rfl] at h
        exact ih h q hr

theorem firstUnmatched_all_true {set : List (migration × Bool)}
    (h : ∀ p ∈ set, p.2 = true) : firstUnmatched set = none := by
  induction set with
  | nil => rfl
  | cons p r ih =>
    simp only [firstUnmatched]
    rw [h p (List.mem_cons_self p r), if_pos rfl]
    exact ih (fun q hq => h q (List.mem_cons_of_mem p hq))


/-! ## Loading the ledger working set -/

theorem loadLedger_set (L : List migration) :
    ∀ (set : List (migration × Bool)) (jb : Bool) (lat : migration),
    (loadLedger L set jb lat).1 = set ++ L.map (fun m => (m, false)) := by
  induction L with
  | nil => intro set jb lat; simp [loadLedger]
  | cons m rest ih =>
    intro set jb lat
    cases jb
    · cases hb : lat.before m
      · simp [loadLedger, hb, ih]
      · simp [loadLedger, hb, ih]
    · simp [loadLedger, ih]

theorem loadLedger_dom_false (L : List migration) :
    ∀ (set : List (migration × Bool)) (lat : migration),
    (∀ m ∈ L, ((loadLedger L set false lat).2).before m = false) ∧
    ((loadLedger L set false lat).2).before lat = false := by
  induction L with
  | nil =>
    intro set lat
    exact ⟨by simp, by simp [loadLedger, before_irrefl]⟩
  | cons m rest ih =>
    intro set lat
    cases hb : lat.before m
    · have h2 : loadLedger (m :: rest) set false lat
          = loadLedger rest (set ++ [(m, false)]) false lat := by
        simp [loadLedger, hb]
      rw [h2]
      obtain ⟨hall, hlat⟩ := ih (set ++ [(m, false)]) lat
      refine ⟨?_, hlat⟩
      intro x hx
      rcases List.mem_cons.mp hx with rfl | hx
      · cases hr : ((loadLedger rest (set ++ [(x, false)]) false lat).2).before x
        · rfl
        · exfalso
          cases hml : x.before lat
          · have he : lat = x := before_total hb hml
            nth_rewrite 2 [← he] at hr
            exact Bool.false_ne_true (hlat.symm.trans hr)
          · exact Bool.false_ne_true (hlat.symm.trans (before_trans hr hml))
      · exact hall x hx
    · have h2 : loadLedger (m :: rest) set false lat
          = loadLedger rest (set ++ [(m, false)]) false m := by
        simp [loadLedger, hb]
      rw [h2]
      obtain ⟨hall, hm⟩ := ih (set ++ [(m, false)]) m
      refine ⟨?_, ?_⟩
      · intro x hx
        rcases List.mem_cons.mp hx with rfl | hx
        · exact hm
        · exact hall x hx
      · cases hr : ((loadLedger rest (set ++ [(m, false)]) false m).2).before lat
        · rfl
        · exact absurd (hm.symm.trans (before_trans hr hb)) Bool.false_ne_true

theorem loadLedger_dom (L : List migration) (set : List (migration × Bool)) (lat : migration) :
    ∀ m ∈ L, ((loadLedger L set true lat).2).before m = false := by
  cases L with
  | nil => simp
  | cons m rest =>
    have h2 : loadLedger (m :: rest) set true lat
        = loadLedger rest (set ++ [(m, false)]) false m := by
      simp [loadLedger]
    rw [h2]
    obtain ⟨hall, hm⟩ := loadLedger_dom_false rest (set ++ [(m, false)]) m
    intro x hx
    rcases List.mem_cons.mp hx with rfl | hx
    · exact hm
    · exact hall x hx

/-! ## Characterization of one walk step -/

theorem stepFile_ok {σ : Type} {st st2 : WalkSt σ} {f : MigFile σ}
    (hs : stepFile st f = .ok st2) :
    validName (baseName f.filepath) = true ∧
    natOfDigits (numStrOf (baseName f.filepath)) ≤ MAX_INT32 ∧
    ((findEntry st.set (fId f) = some false ∧ st.latest.before (fId f) = false ∧
        st2 = { st with set := markDone st.set (fId f) }) ∨
      (findEntry st.set (fId f) = none ∧ st.latest.before (fId f) = true ∧
        ∃ g app', f.content = some g ∧ g st.db.app = some app' ∧
          st2 = ⟨st.set ++ [(fId f, true)], fId f,
            ⟨st.db.ledger ++ [fId f], app'⟩, st.performed + 1⟩)) := by
  simp only [fId]
  cases hv : validName (baseName f.filepath)
  · simp [stepFile, hv] at hs
  · by_cases hn : natOfDigits (numStrOf (baseName f.filepath)) > MAX_INT32
    · simp [stepFile, hv, hn] at hs
    · refine ⟨rfl, Nat.le_of_not_lt hn, ?_⟩
      cases hfind : findEntry st.set (parseName (baseName f.filepath)) with
      | some b =>
        cases b
        · cases hbef : st.latest.before (parseName (baseName f.filepath))
          · simp [stepFile, hv, hn, hfind, hbef] at hs
            exact Or.inl ⟨rfl, rfl, hs.symm⟩
          · simp [stepFile, hv, hn, hfind, hbef] at hs
        · simp [stepFile, hv, hn, hfind] at hs
      | none =>
        cases hbef : st.latest.before (parseName (baseName f.filepath))
        · simp [stepFile, hv, hn, hfind, hbef] at hs
        · cases hc : f.content with
          | none => simp [stepFile, hv, hn, hfind, hbef, hc] at hs
          | some g =>
            cases hg : g st.db.app with
            | none => simp [stepFile, hv, hn, hfind, hbef, hc, hg] at hs
            | some app' =>
              simp [stepFile, hv, hn, hfind, hbef, hc, hg] at hs
              exact Or.inr ⟨rfl, rfl, g, app', rfl, hg, hs.symm⟩

theorem stepFile_fail {σ : Type} {st st2 : WalkSt σ} {f : MigFile σ} {e : MigErr}
    (hs : stepFile st f = .fail e st2) :
    st2.db = st.db ∧ st2.performed = st.performed ∧
    ((st2.set = st.set ∧ st2.latest = st.latest) ∨
      (st2.set = st.set ++ [(fId f, true)] ∧ st2.latest = fId f ∧
        findEntry st.set (fId f) = none ∧ st.latest.before (fId f) = true)) ∧
    (∀ x l, e = MigErr.outOfOrderOld x l →
      x = fId f ∧ findEntry st.set (fId f) = some false ∧
      st.latest.before (fId f) = true) := by
  simp only [fId]
  cases hv : validName (baseName f.filepath)
  · simp [stepFile, hv] at hs
    obtain ⟨he, hst⟩ := hs
    rw [← hst]
    exact ⟨rfl, rfl, Or.inl ⟨rfl, rfl⟩, by rw [← he]; intro x l h; cases h⟩
  · by_cases hn : natOfDigits (numStrOf (baseName f.filepath)) > MAX_INT32
    · simp [stepFile, hv, hn] at hs
      obtain ⟨he, hst⟩ := hs
      rw [← hst]
      exact ⟨rfl, rfl, Or.inl ⟨rfl, rfl⟩, by rw [← he]; intro x l h; cases h⟩
    · cases hfind : findEntry st.set (parseName (baseName f.filepath)) with
      | some b =>
        cases b
        · cases hbef : st.latest.before (parseName (baseName f.filepath))
          · simp [stepFile, hv, hn, hfind, hbef] at hs
          · simp [stepFile, hv, hn, hfind, hbef] at hs
            obtain ⟨he, hst⟩ := hs
            rw [← hst]
            refine ⟨rfl, rfl, Or.inl ⟨rfl, rfl⟩, ?_⟩
            rw [← he]
            intro x l h
            cases h
            exact ⟨rfl, rfl, rfl⟩
        · simp [stepFile, hv, hn, hfind] at hs
          obtain ⟨he, hst⟩ := hs
          rw [← hst]
          exact ⟨rfl, rfl, Or.inl ⟨rfl, rfl⟩, by rw [← he]; intro x l h; cases h⟩
      | none =>
        cases hbef : st.latest.before (parseName (baseName f.filepath))
        · simp [stepFile, hv, hn, hfind, hbef] at hs
          obtain ⟨he, hst⟩ := hs
          rw [← hst]
          exact ⟨rfl, rfl, Or.inl ⟨rfl, rfl⟩, by rw [← he]; intro x l h; cases h⟩
        · cases hc : f.content with
          | none =>
            simp [stepFile, hv, hn, hfind, hbef, hc] at hs
            obtain ⟨he, hst⟩ := hs
            rw [← hst]
            exact ⟨rfl, rfl, Or.inr ⟨rfl, rfl, rfl, rfl⟩,
              by rw [← he]; intro x l h; cases h⟩
          | some g =>
            cases hg : g st.db.app with
            | none =>
              simp [stepFile, hv, hn, hfind, hbef, hc, hg] at hs
              obtain ⟨he, hst⟩ := hs
              rw [← hst]
              exact ⟨rfl, rfl, Or.inr ⟨rfl, rfl, rfl, rfl⟩,
                by rw [← he]; intro x l h; cases h⟩
            | some app' =>
              simp [stepFile, hv, hn, hfind, hbef, hc, hg] at hs

/-! ## Walk invariants -/

theorem stepFile_ok_inv {σ : Type} {st st2 : WalkSt σ} {f : MigFile σ}
    (hs : stepFile st f = .ok st2)
    (hinv : ∀ m ∈ keysOf st.set, st.latest.before m = false) :
    ∀ m ∈ keysOf st2.set, st2.latest.before m = false := by
  obtain ⟨_, _, hcase⟩ := stepFile_ok hs
  rcases hcase with ⟨hfind, hbef, hst2⟩ | ⟨hfind, hbef, g, app', hc, hg, hst2⟩
  · rw [hst2]
    intro m hm
    rw [keysOf_markDone] at hm
    exact hinv m hm
  · rw [hst2]
    intro m hm
    rw [keysOf_append] at hm
    rcases List.mem_append.mp hm with hm | hm
    · cases hr : (fId f).before m
      · rfl
      · exact absurd ((hinv m hm).symm.trans (before_trans hbef hr)) Bool.false_ne_true
    · simp only [keysOf, List.map_cons, List.map_nil] at hm
      rcases List.mem_singleton.mp hm with rfl
      exact before_irrefl _
  
theorem walk_marked_mono {σ : Type} (files : List (MigFile σ)) :
    ∀ (st st' : WalkSt σ) (e : Option MigErr),
    walkFiles st files = (st', e) →
    ∀ m, findEntry st.set m = some true → findEntry st'.set m = some true := by
  induction files with
  | nil =>
    intro st st' e hw m hm
    simp only [walkFiles, Prod.mk.injEq] at hw
    rw [← hw.1]
    exact hm
  | cons f rest ih =>
    intro st st' e hw m hm
    cases hs : stepFile st f with
    | ok st2 =>
      simp only [walkFiles, hs] at hw
      refine ih st2 st' e hw m ?_
      obtain ⟨_, _, hcase⟩ := stepFile_ok hs
      rcases hcase with ⟨hfind, hbef, hst2⟩ | ⟨hfind, hbef, g, app', hc, hg, hst2⟩
      · rw [hst2]
        by_cases hmf : m = fId f
        · subst hmf
          exact findEntry_markDone_self hm
        · rw [findEntry_markDone_other hmf]
          exact hm
      · rw [hst2]
        exact findEntry_append_left hm _
    | fail e2 st2 =>
      simp only [walkFiles, hs, Prod.mk.injEq] at hw
      rw [← hw.1]
      obtain ⟨_, _, hset, _⟩ := stepFile_fail hs
      rcases hset with ⟨hset, _⟩ | ⟨hset, _, _, _⟩
      · rw [hset]; exact hm
      · rw [hset]; exact findEntry_append_left hm _

theorem walk_no_oooOld {σ : Type} (files : List (MigFile σ)) :
    ∀ (st st' : WalkSt σ) (e : Option MigErr),
    walkFiles st files = (st', e) →
    (∀ m ∈ keysOf st.set, st.latest.before m = false) →
    ∀ x l, e ≠ some (MigErr.outOfOrderOld x l) := by
  induction files with
  | nil =>
    intro st st' e hw _ x l
    simp only [walkFiles, Prod.mk.injEq] at hw
    rw [← hw.2]
    simp
  | cons f rest ih =>
    intro st st' e hw hinv x l
    cases hs : stepFile st f with
    | ok st2 =>
      simp only [walkFiles, hs] at hw
      exact ih st2 st' e hw (stepFile_ok_inv hs hinv) x l
    | fail e2 st2 =>
      simp only [walkFiles, hs, Prod.mk.injEq] at hw
      obtain ⟨_, _, _, hooo⟩ := stepFile_fail hs
      intro hcontra
      rw [← hw.2] at hcontra
      injection hcontra with h3
      obtain ⟨hx, hfind, hbef⟩ := hooo x l h3
      exact Bool.false_ne_true ((hinv (fId f) (findEntry_some_mem hfind)).symm.trans hbef)

theorem walk_dom_inv {σ : Type} (files : List (MigFile σ)) :
    ∀ (st st' : WalkSt σ),
    walkFiles st files = (st', none) →
    (∀ m ∈ keysOf st.set, st.latest.before m = false) →
    ∀ m ∈ keysOf st'.set, st'.latest.before m = false := by
  induction files with
  | nil =>
    intro st st' hw hinv
    simp only [walkFiles, Prod.mk.injEq] at hw
    rw [← hw.1]
    exact hinv
  | cons f rest ih =>
    intro st st' hw hinv
    cases hs : stepFile st f with
    | ok st2 =>
      simp only [walkFiles, hs] at hw
      exact ih st2 st' hw (stepFile_ok_inv hs hinv)
    | fail e2 st2 =>
      simp only [walkFiles, hs, Prod.mk.injEq] at hw
      exact Option.noConfusion hw.2

theorem walk_unmatched {σ : Type} (files : List (MigFile σ)) :
    ∀ (st st' : WalkSt σ) (e : Option MigErr) (m : migration),
    walkFiles st files = (st', e) → (m, false) ∈ st.set →
    (∀ f ∈ files, ¬(validName (baseName f.filepath) = true ∧ fId f = m)) →
    (m, false) ∈ st'.set := by
  induction files with
  | nil =>
    intro st st' e m hw hm _
    simp only [walkFiles, Prod.mk.injEq] at hw
    rw [← hw.1]
    exact hm
  | cons f rest ih =>
    intro st st' e m hw hm hno
    cases hs : stepFile st f with
    | ok st2 =>
      simp only [walkFiles, hs] at hw
      refine ih st2 st' e m hw ?_ (fun f2 h2 => hno f2 (List.mem_cons_of_mem f h2))
      obtain ⟨hv, _, hcase⟩ := stepFile_ok hs
      have hne : m ≠ fId f := fun he => hno f (List.mem_cons_self f rest) ⟨hv, he.symm⟩
      rcases hcase with ⟨_, _, hst2⟩ | ⟨_, _, g, app', _, _, hst2⟩
      · rw [hst2]
        exact mem_false_markDone hm hne
      · rw [hst2]
        exact List.mem_append_left _ hm
    | fail e2 st2 =>
      simp only [walkFiles, hs, Prod.mk.injEq] at hw
      rw [← hw.1]
      obtain ⟨_, _, hset, _⟩ := stepFile_fail hs
      rcases hset with ⟨hset, _⟩ | ⟨hset, _, _, _⟩
      · rw [hset]; exact hm
      · rw [hset]; exact List.mem_append_left _ hm

theorem stepFile_ok_marks_own {σ : Type} {st st2 : WalkSt σ} {f : MigFile σ}
    (hs : stepFile st f = .ok st2) : findEntry st2.set (fId f) = some true := by
  obtain ⟨_, _, hcase⟩ := stepFile_ok hs
  rcases hcase with ⟨hfind, _, hst2⟩ | ⟨hfind, _, g, app', _, _, hst2⟩
  · rw [hst2]
    exact findEntry_markDone_self hfind
  · rw [hst2]
    show findEntry (st.set ++ [(fId f, true)]) (fId f) = some true
    rw [findEntry_append_right hfind]
    simp [findEntry]

theorem walk_ledger_keys {σ : Type} (files : List (MigFile σ)) :
    ∀ (st st' : WalkSt σ), walkFiles st files = (st', none) →
    ∃ t, st'.db.ledger = st.db.ledger ++ t ∧ keysOf st'.set = keysOf st.set ++ t := by
  induction files with
  | nil =>
    intro st st' hw
    simp only [walkFiles, Prod.mk.injEq] at hw
    exact ⟨[], by simp [← hw.1]⟩
  | cons f rest ih =>
    intro st st' hw
    cases hs : stepFile st f with
    | ok st2 =>
      simp only [walkFiles, hs] at hw
      obtain ⟨t, hl, hk⟩ := ih st2 st' hw
      obtain ⟨_, _, hcase⟩ := stepFile_ok hs
      rcases hcase with ⟨_, _, hst2⟩ | ⟨_, _, g, app', _, _, hst2⟩
      · refine ⟨t, ?_, ?_⟩
        · rw [hl, hst2]
        · rw [hk, hst2, keysOf_markDone]
      · refine ⟨fId f :: t, ?_, ?_⟩
        · rw [hl, hst2]
          simp
        · rw [hk, hst2, keysOf_append]
          simp [keysOf]
    | fail e2 st2 =>
      simp only [walkFiles, hs, Prod.mk.injEq] at hw
      exact absurd hw.2 (by simp)

theorem walk_success_files {σ : Type} (files : List (MigFile σ)) :
    ∀ (st st' : WalkSt σ), walkFiles st files = (st', none) →
    ∀ f ∈ files, validName (baseName f.filepath) = true ∧
      natOfDigits (numStrOf (baseName f.filepath)) ≤ MAX_INT32 ∧
      findEntry st'.set (fId f) = some true := by
  induction files with
  | nil => intro st st' hw f hf; simp at hf
  | cons f0 rest ih =>
    intro st st' hw f hf
    cases hs : stepFile st f0 with
    | ok st2 =>
      simp only [walkFiles, hs] at hw
      obtain ⟨hv, hb, _⟩ := stepFile_ok hs
      rcases List.mem_cons.mp hf with rfl | hf
      · exact ⟨hv, hb,
          walk_marked_mono rest st2 st' none hw (fId f) (stepFile_ok_marks_own hs)⟩
      · exact ih st2 st' hw f hf
    | fail e2 st2 =>
      simp only [walkFiles, hs, Prod.mk.injEq] at hw
      exact absurd hw.2 (by simp)

theorem walk_success_not_marked {σ : Type} (files : List (MigFile σ)) :
    ∀ (st st' : WalkSt σ), walkFiles st files = (st', none) →
    ∀ m, findEntry st.set m = some true → m ∉ files.map fId := by
  induction files with
  | nil => intro st st' hw m hm; simp
  | cons f rest ih =>
    intro st st' hw m hm
    cases hs : stepFile st f with
    | ok st2 =>
      simp only [walkFiles, hs] at hw
      simp only [List.map_cons, List.mem_cons, not_or]
      constructor
      · intro he
        obtain ⟨_, _, hcase⟩ := stepFile_ok hs
        rcases hcase with ⟨hfind, _, _⟩ | ⟨hfind, _, _⟩
        · rw [← he] at hfind
          exact absurd (hm.symm.trans hfind) (by simp)
        · rw [← he] at hfind
          exact absurd (hm.symm.trans hfind) (by simp)
      · have hm2 : findEntry st2.set m = some true := by
          obtain ⟨_, _, hcase⟩ := stepFile_ok hs
          rcases hcase with ⟨hfind, _, hst2⟩ | ⟨hfind, _, g, app', _, _, hst2⟩
          · rw [hst2]
            by_cases hmf : m = fId f
            · subst hmf; exact findEntry_markDone_self hm
            · rw [findEntry_markDone_other hmf]; exact hm
          · rw [hst2]
            exact findEntry_append_left hm _
        exact ih st2 st' hw m hm2
    | fail e2 st2 =>
      simp only [walkFiles, hs, Prod.mk.injEq] at hw
      exact absurd hw.2 (by simp)

theorem walk_success_nodup {σ : Type} (files : List (MigFile σ)) :
    ∀ (st st' : WalkSt σ), walkFiles st files = (st', none) →
    (files.map fId).Nodup := by
  induction files with
  | nil => intro st st' hw; simp
  | cons f rest ih =>
    intro st st' hw
    cases hs : stepFile st f with
    | ok st2 =>
      simp only [walkFiles, hs] at hw
      simp only [List.map_cons, List.nodup_cons]
      exact ⟨walk_success_not_marked rest st2 st' hw (fId f) (stepFile_ok_marks_own hs),
        ih st2 st' hw⟩
    | fail e2 st2 =>
      simp only [walkFiles, hs, Prod.mk.injEq] at hw
      exact absurd hw.2 (by simp)

theorem walk_success_mem_or_gt {σ : Type} (files : List (MigFile σ)) :
    ∀ (st st' : WalkSt σ), walkFiles st files = (st', none) →
    ∀ f ∈ files, fId f ∈ keysOf st.set ∨ st.latest.before (fId f) = true := by
  induction files with
  | nil => intro st st' hw f hf; simp at hf
  | cons f0 rest ih =>
    intro st st' hw f hf
    cases hs : stepFile st f0 with
    | ok st2 =>
      simp only [walkFiles, hs] at hw
      obtain ⟨_, _, hcase⟩ := stepFile_ok hs
      rcases List.mem_cons.mp hf with rfl | hf
      · rcases hcase with ⟨hfind, _, _⟩ | ⟨_, hbef, _⟩
        · exact Or.inl (findEntry_some_mem hfind)
        · exact Or.inr hbef
      · rcases ih st2 st' hw f hf with hmem | hlt
        · rcases hcase with ⟨_, _, hst2⟩ | ⟨_, hbef0, _, _, _, _, hst2⟩
          · rw [hst2, keysOf_markDone] at hmem
            exact Or.inl hmem
          · rw [hst2, keysOf_append] at hmem
            rcases List.mem_append.mp hmem with hmem | hmem
            · exact Or.inl hmem
            · simp only [keysOf, List.map_cons, List.map_nil, List.mem_singleton] at hmem
              rw [hmem]
              exact Or.inr hbef0
        · rcases hcase with ⟨_, _, hst2⟩ | ⟨_, hbef0, _, _, _, _, hst2⟩
          · rw [hst2] at hlt
            exact Or.inr hlt
          · rw [hst2] at hlt
            exact Or.inr (before_trans hbef0 hlt)
    | fail e2 st2 =>
      simp only [walkFiles, hs, Prod.mk.injEq] at hw
      exact absurd hw.2 (by simp)

/-! ## Ascending chains and bulk marking -/

theorem ascFrom_all : ∀ {l : List migration} {m : migration},
    ascFrom m l = true → ∀ x ∈ l, m.before x = true := by
  intro l
  induction l with
  | nil => intro m _ x hx; simp at hx
  | cons y rest ih =>
    intro m h x hx
    simp only [ascFrom, Bool.and_eq_true] at h
    rcases List.mem_cons.mp hx with rfl | hx
    · exact h.1
    · exact before_trans h.1 (ih h.2 x hx)

theorem markAll_nil (set : List (migration × Bool)) : markAll set [] = set := by
  simp [markAll]

theorem markAll_cons_key (set : List (migration × Bool)) (i : migration)
    (ids : List migration) :
    markAll set (i :: ids) = markAll (markDone set i) ids := by
  induction set with
  | nil => rfl
  | cons p r ih =>
    simp only [markAll, markDone, List.map_cons, List.map_map] at ih ⊢
    rw [ih]
    congr 1
    by_cases hp : p.1 = i <;> by_cases hin : p.1 ∈ ids <;>
      simp [hp, hin, List.mem_cons]

theorem firstUnmatched_markAll {set : List (migration × Bool)} {ids : List migration}
    (h : ∀ p ∈ set, p.1 ∈ ids) : firstUnmatched (markAll set ids) = none := by
  apply firstUnmatched_all_true
  intro q hq
  simp only [markAll, List.mem_map] at hq
  obtain ⟨p, hp, hpq⟩ := hq
  rw [← hpq]
  simp [h p hp]

theorem walk_marked_sub {σ : Type} (files : List (MigFile σ)) :
    ∀ (st st' : WalkSt σ) (e : Option MigErr),
    walkFiles st files = (st', e) →
    ∀ m, findEntry st'.set m = some true →
      findEntry st.set m = some true ∨ m ∈ files.map fId := by
  induction files with
  | nil =>
    intro st st' e hw m hm
    simp only [walkFiles, Prod.mk.injEq] at hw
    rw [← hw.1] at hm
    exact Or.inl hm
  | cons f rest ih =>
    intro st st' e hw m hm
    cases hs : stepFile st f with
    | ok st2 =>
      simp only [walkFiles, hs] at hw
      rcases ih st2 st' e hw m hm with hm2 | hmem
      · obtain ⟨_, _, hcase⟩ := stepFile_ok hs
        rcases hcase with ⟨hfind, _, hst2⟩ | ⟨hfind, _, g, app', _, _, hst2⟩
        · rw [hst2] at hm2
          by_cases hmf : m = fId f
          · exact Or.inr (by simp [hmf])
          · rw [findEntry_markDone_other hmf] at hm2
            exact Or.inl hm2
        · rw [hst2] at hm2
          cases hfm : findEntry st.set m with
          | some b =>
            have hb : some b = some true :=
              (findEntry_append_left hfm _).symm.trans hm2
            injection hb with hb2
            subst hb2
            exact Or.inl rfl
          | none =>
            have hm2' : findEntry (st.set ++ [(fId f, true)]) m = some true := hm2
            rw [findEntry_append_right hfm] at hm2'
            simp only [findEntry] at hm2'
            by_cases hmf : fId f = m
            · exact Or.inr (by simp [hmf])
            · rw [if_neg hmf] at hm2'
              exact absurd hm2' (by simp)
      · exact Or.inr (List.mem_cons_of_mem _ hmem)
    | fail e2 st2 =>
      simp only [walkFiles, hs, Prod.mk.injEq] at hw
      rw [← hw.1] at hm
      obtain ⟨_, _, hset, _⟩ := stepFile_fail hs
      rcases hset with ⟨hset, _⟩ | ⟨hset, _, _, _⟩
      · rw [hset] at hm
        exact Or.inl hm
      · rw [hset] at hm
        cases hfm : findEntry st.set m with
        | some b =>
          have hb : some b = some true :=
            (findEntry_append_left hfm _).symm.trans hm
          injection hb with hb2
          subst hb2
          exact Or.inl rfl
        | none =>
          rw [findEntry_append_right hfm] at hm
          simp only [findEntry] at hm
          by_cases hmf : fId f = m
          · exact Or.inr (by simp [hmf])
          · rw [if_neg hmf] at hm
            exact absurd hm (by simp)

theorem walk_skip_all {σ : Type} (files : List (MigFile σ)) :
    ∀ (st : WalkSt σ),
    (∀ f ∈ files, validName (baseName f.filepath) = true ∧
      natOfDigits (numStrOf (baseName f.filepath)) ≤ MAX_INT32 ∧
      findEntry st.set (fId f) = some false ∧
      st.latest.before (fId f) = false) →
    (files.map fId).Nodup →
    walkFiles st files = ({ st with set := markAll st.set (files.map fId) }, none) := by
  induction files with
  | nil =>
    intro st _ _
    simp [walkFiles, markAll_nil]
  | cons f rest ih =>
    intro st hall hnd
    obtain ⟨hv, hb, hfind, hbef⟩ := hall f (List.mem_cons_self f rest)
    simp only [List.map_cons, List.nodup_cons] at hnd
    have hfind' : findEntry st.set (parseName (baseName f.filepath)) = some false := hfind
    have hbef' : st.latest.before (parseName (baseName f.filepath)) = false := hbef
    have hstep : stepFile st f = .ok { st with set := markDone st.set (fId f) } := by
      simp [stepFile, hv, Nat.not_lt.mpr hb, hfind', hbef', fId]
    have h2 := ih { st with set := markDone st.set (fId f) } ?_ hnd.2
    · simp only [walkFiles, hstep]
      rw [h2, List.map_cons, markAll_cons_key]
    · intro f2 hf2
      obtain ⟨hv2, hb2, hfind2, hbef2⟩ := hall f2 (List.mem_cons_of_mem f hf2)
      have hne : fId f2 ≠ fId f := by
        intro he
        exact hnd.1 (he ▸ List.mem_map_of_mem fId hf2)
      refine ⟨hv2, hb2, ?_, hbef2⟩
      show findEntry (markDone st.set (fId f)) (fId f2) = some false
      rw [findEntry_markDone_other hne]
      exact hfind2

theorem walk_apply_all {σ : Type} (files : List (MigFile σ)) :
    ∀ (st : WalkSt σ),
    (∀ f ∈ files, validName (baseName f.filepath) = true ∧
      natOfDigits (numStrOf (baseName f.filepath)) ≤ MAX_INT32 ∧
      findEntry st.set (fId f) = none ∧
      (∃ g : σ → Option σ, f.content = some g ∧ ∀ s, (g s).isSome = true)) →
    ascFrom st.latest (files.map fId) = true →
    ∃ st' : WalkSt σ, walkFiles st files = (st', none) ∧
      st'.set = st.set ++ (files.map fId).map (fun m => (m, true)) ∧
      st'.latest = lastD st.latest (files.map fId) ∧
      st'.db.ledger = st.db.ledger ++ files.map fId ∧
      st'.performed = st.performed + files.length := by
  induction files with
  | nil =>
    intro st _ _
    exact ⟨st, by simp [walkFiles], by simp, rfl, by simp, by simp⟩
  | cons f rest ih =>
    intro st hall hasc
    obtain ⟨hv, hb, hfind, g, hc, hg⟩ := hall f (List.mem_cons_self f rest)
    simp only [List.map_cons, ascFrom, Bool.and_eq_true] at hasc
    obtain ⟨hbef, hasc2⟩ := hasc
    cases hga : g st.db.app with
    | none => exact absurd (hg st.db.app) (by simp [hga])
    | some app1 =>
      have hfind2 : findEntry st.set (parseName (baseName f.filepath)) = none := hfind
      have hbef2 : st.latest.before (parseName (baseName f.filepath)) = true := hbef
      have hstep : stepFile st f = .ok ⟨st.set ++ [(fId f, true)], fId f,
          ⟨st.db.ledger ++ [fId f], app1⟩, st.performed + 1⟩ := by
        simp [stepFile, hv, Nat.not_lt.mpr hb, hfind2, hbef2, hc, hga, fId]
      have hrest_hyp : ∀ f2 ∈ rest, validName (baseName f2.filepath) = true ∧
          natOfDigits (numStrOf (baseName f2.filepath)) ≤ MAX_INT32 ∧
          findEntry (st.set ++ [(fId f, true)]) (fId f2) = none ∧
          (∃ g2 : σ → Option σ, f2.content = some g2 ∧ ∀ s, (g2 s).isSome = true) := by
        intro f2 hf2
        obtain ⟨hv2, hb2, hfind3, hg2⟩ := hall f2 (List.mem_cons_of_mem f hf2)
        refine ⟨hv2, hb2, ?_, hg2⟩
        rw [findEntry_append_right hfind3]
        have hne : fId f ≠ fId f2 := by
          intro he
          have hx := ascFrom_all hasc2 (fId f2) (List.mem_map_of_mem fId hf2)
          rw [he] at hx
          exact Bool.false_ne_true ((before_irrefl (fId f2)).symm.trans hx)
        simp [findEntry, hne]
      obtain ⟨st', hw, hset, hlat, hled, hperf⟩ :=
        ih ⟨st.set ++ [(fId f, true)], fId f,
          ⟨st.db.ledger ++ [fId f], app1⟩, st.performed + 1⟩ hrest_hyp hasc2
      refine ⟨st', ?_, ?_, ?_, ?_, ?_⟩
      · simp only [walkFiles, hstep]
        exact hw
      · rw [hset]
        simp [List.append_assoc]
      · rw [hlat]
        exact rfl
      · rw [hled]
        simp [List.append_assoc]
      · rw [hperf]
        show st.performed + 1 + rest.length = _
        simp only [List.length_cons]
        omega

/-! ## Run-level helper lemmas -/

theorem findEntry_some_pair {set : List (migration × Bool)} {m : migration} {b : Bool}
    (h : findEntry set m = some b) : (m, b) ∈ set := by
  induction set with
  | nil => simp [findEntry] at h
  | cons p r ih =>
    rw [findEntry_cons] at h
    by_cases hp : p.1 = m
    · rw [if_pos hp] at h
      injection h with h2
      exact List.mem_cons.mpr (Or.inl (by rw [← hp, ← h2]))
    · rw [if_neg hp] at h
      exact List.mem_cons_of_mem p (ih h)

theorem findEntry_mapFalse_b {L : List migration} {m : migration} {b : Bool}
    (h : findEntry (L.map (fun x => (x, false))) m = some b) : b = false := by
  induction L with
  | nil => simp [findEntry] at h
  | cons x r ih =>
    simp only [List.map_cons] at h
    rw [findEntry_cons] at h
    by_cases hx : x = m
    · rw [if_pos hx] at h
      injection h with h2
      exact h2.symm
    · rw [if_neg hx] at h
      exact ih h

theorem initWalk_set {σ : Type} (db : DB σ) :
    (initWalk db).set = db.ledger.map (fun m => (m, false)) := by
  show (loadLedger db.ledger [] true zeroMig).1 = _
  rw [loadLedger_set]
  simp

theorem initWalk_keys {σ : Type} (db : DB σ) : keysOf (initWalk db).set = db.ledger := by
  rw [initWalk_set]
  simp only [keysOf, List.map_map]
  have : (Prod.fst ∘ fun m : migration => (m, false)) = id := rfl
  rw [this, List.map_id]

theorem initWalk_dom {σ : Type} (db : DB σ) :
    ∀ m ∈ keysOf (initWalk db).set, (initWalk db).latest.before m = false := by
  intro m hm
  rw [initWalk_keys] at hm
  exact loadLedger_dom db.ledger [] zeroMig m hm

theorem RunMigrations_eq {σ : Type} (db : DB σ) (files : List (MigFile σ))
    (st' : WalkSt σ) (e : Option MigErr)
    (hw : walkFiles (initWalk db) files = (st', e)) :
    RunMigrations db files = (match firstUnmatched st'.set with
      | some m => ⟨st'.db, st'.performed, some (.missing m)⟩
      | none => ⟨st'.db, st'.performed, e⟩) := by
  simp [RunMigrations, hw]

theorem lastD_dom : ∀ (l : List migration) (m : migration), ascFrom m l = true →
    (lastD m l).before m = false ∧ ∀ x ∈ l, (lastD m l).before x = false := by
  intro l
  induction l with
  | nil => intro m _; exact ⟨before_irrefl m, by simp⟩
  | cons x rest ih =>
    intro m h
    simp only [ascFrom, Bool.and_eq_true] at h
    obtain ⟨hmx, hrest⟩ := h
    obtain ⟨hx, hall⟩ := ih x hrest
    have hm : (lastD x rest).before m = false := by
      cases hr : (lastD x rest).before m
      · rfl
      · exact absurd (hx.symm.trans (before_trans hr hmx)) Bool.false_ne_true
    refine ⟨hm, ?_⟩
    intro y hy
    rcases List.mem_cons.mp hy with rfl | hy
    · exact hx
    · exact hall y hy

/-- C10: the "migrations are out of order: old migration ... is newer
than latest migration" branch is unreachable: `latestMigration` starts
at the maximum of the ledger working set and only ever increases, so
from every walk state reached without error from any store — the only
states at which the callback ever runs — the callback never takes that
branch on any file whatsoever, and no continuation of the walk from
such a state ever produces that error. -/
theorem out_of_order_old_unreachable {σ : Type} (db : DB σ)
    (pre : List (MigFile σ)) (st : WalkSt σ)
    (hpre : walkFiles (initWalk db) pre = (st, none)) :
    (∀ (f : MigFile σ) (x l : migration) (st2 : WalkSt σ),
        stepFile st f ≠ StepRes.fail (MigErr.outOfOrderOld x l) st2) ∧
    (∀ (rest : List (MigFile σ)) (st' : WalkSt σ) (x l : migration),
        walkFiles st rest ≠ (st', some (MigErr.outOfOrderOld x l))) := by
  have hinv : ∀ m ∈ keysOf st.set, st.latest.before m = false :=
    walk_dom_inv pre (initWalk db) st hpre (initWalk_dom db)
  constructor
  · intro f x l st2 hs
    obtain ⟨_, _, _, hooo⟩ := stepFile_fail hs
    obtain ⟨hx, hfind, hbef⟩ := hooo x l rfl
    exact Bool.false_ne_true
      ((hinv (fId f) (findEntry_some_mem hfind)).symm.trans hbef)
  · intro rest st' x l hw
    exact walk_no_oooOld rest st st' (some (MigErr.outOfOrderOld x l)) hw hinv x l rfl

theorem out_of_order_old_unreachable_witness :
    walkFiles (initWalk (σ := Unit) ⟨[⟨"2020-01-01".data, 0⟩], ()⟩)
        [⟨"2020-01-01.0.sql".data, none⟩]
      = (⟨[(⟨"2020-01-01".data, 0⟩, true)], ⟨"2020-01-01".data, 0⟩,
          ⟨[⟨"2020-01-01".data, 0⟩], ()⟩, 0⟩, none) ∧
    ((∀ (f : MigFile Unit) (x l : migration) (st2 : WalkSt Unit),
        stepFile (⟨[(⟨"2020-01-01".data, 0⟩, true)], ⟨"2020-01-01".data, 0⟩,
            ⟨[⟨"2020-01-01".data, 0⟩], ()⟩, 0⟩ : WalkSt Unit) f
          ≠ StepRes.fail (MigErr.outOfOrderOld x l) st2) ∧
     (∀ (rest : List (MigFile Unit)) (st' : WalkSt Unit) (x l : migration),
        walkFiles (⟨[(⟨"2020-01-01".data, 0⟩, true)], ⟨"2020-01-01".data, 0⟩,
            ⟨[⟨"2020-01-01".data, 0⟩], ()⟩, 0⟩ : WalkSt Unit) rest
          ≠ (st', some (MigErr.outOfOrderOld x l)))) :=
  ⟨rfl, out_of_order_old_unreachable ⟨[⟨"2020-01-01".data, 0⟩], ()⟩
      [⟨"2020-01-01.0.sql".data, none⟩]
      ⟨[(⟨"2020-01-01".data, 0⟩, true)], ⟨"2020-01-01".data, 0⟩,
        ⟨[⟨"2020-01-01".data, 0⟩], ()⟩, 0⟩ rfl⟩

/-- C7: a discovered file whose basename does not match
`^\d{4}-\d{2}-\d{2}\.\d+\.sql$` makes the walk callback fail with the
"bad format" discovery error without touching any state, and the whole
run returns an error; in particular the unpadded `2020-1-1.0.sql` is
rejected. -/
theorem malformed_name_rejected {σ : Type} (db : DB σ) (files : List (MigFile σ))
    (f : MigFile σ) (hmem : f ∈ files)
    (hbad : validName (baseName f.filepath) = false) :
    (RunMigrations db files).err ≠ none ∧
    (∀ st : WalkSt σ, stepFile st f = .fail (.badFormat (baseName f.filepath)) st) := by
  constructor
  · intro h
    rcases hw : walkFiles (initWalk db) files with ⟨st', e⟩
    rw [RunMigrations_eq db files st' e hw] at h
    cases hfu : firstUnmatched st'.set with
    | some m =>
      rw [hfu] at h
      simp at h
    | none =>
      rw [hfu] at h
      simp only at h
      rw [h] at hw
      have hv := (walk_success_files files (initWalk db) st' hw f hmem).1
      rw [hbad] at hv
      exact Bool.false_ne_true hv
  · intro st
    simp [stepFile, hbad]

theorem malformed_name_rejected_witness :
    (RunMigrations (σ := Unit) ⟨[], ()⟩ [⟨"2020-1-1.0.sql".data, none⟩]).err ≠ none :=
  (malformed_name_rejected ⟨[], ()⟩ [⟨"2020-1-1.0.sql".data, none⟩]
    ⟨"2020-1-1.0.sql".data, none⟩ (List.mem_singleton.mpr rfl) (by decide)).1

/-- C3 (amended): a ledger entry with no matching discovered script
always makes the run return a "missing migration" error — the
unmatched-entry scan runs regardless of any enumeration/apply error —
and whenever the scan finds an unmatched entry, the missing-migration
error is the one reported, taking precedence over any earlier walk
error. -/
theorem missing_migration_reported {σ : Type} (db : DB σ) (files : List (MigFile σ))
    (m : migration) (hmem : m ∈ db.ledger)
    (hnof : ∀ f ∈ files, ¬(validName (baseName f.filepath) = true ∧ fId f = m)) :
    (∃ m', (RunMigrations db files).err = some (MigErr.missing m')) ∧
    (∀ (st' : WalkSt σ) (e : Option MigErr) (m'' : migration),
      walkFiles (initWalk db) files = (st', e) →
      firstUnmatched st'.set = some m'' →
      (RunMigrations db files).err = some (MigErr.missing m'')) := by
  constructor
  · rcases hw : walkFiles (initWalk db) files with ⟨st', e⟩
    have hmem0 : (m, false) ∈ (initWalk db).set := by
      rw [initWalk_set]
      exact List.mem_map_of_mem _ hmem
    have hpers := walk_unmatched files (initWalk db) st' e m hw hmem0 hnof
    obtain ⟨m', hm'⟩ := firstUnmatched_isSome hpers
    refine ⟨m', ?_⟩
    rw [RunMigrations_eq db files st' e hw, hm']
  · intro st' e m'' hw hfu
    rw [RunMigrations_eq db files st' e hw, hfu]

theorem missing_migration_reported_witness :
    ∃ m', (RunMigrations (σ := Unit) ⟨[⟨"2020-01-01".data, 0⟩], ()⟩ []).err
      = some (MigErr.missing m') :=
  (missing_migration_reported ⟨[⟨"2020-01-01".data, 0⟩], ()⟩ [] ⟨"2020-01-01".data, 0⟩
    (List.mem_singleton.mpr rfl) (by simp)).1

/-- C3 counterexample: with ledger entry `(2020-01-01, 0)` and files
`0bad.sql` (malformed, enumerated first, so the walk aborts with the
bad-format error) and `2020-01-01.0.sql` (never reached, so the entry
stays unmatched), the error the run reports is the missing-migration
error — not the earlier fatal walk error the claim says takes
precedence. -/
theorem missing_error_precedence_counterexample :
    (walkFiles (initWalk (σ := Unit) ⟨[⟨"2020-01-01".data, 0⟩], ()⟩)
        [⟨"0bad.sql".data, none⟩, ⟨"2020-01-01.0.sql".data, none⟩]).2
      = some (MigErr.badFormat "0bad.sql".data) ∧
    (RunMigrations (σ := Unit) ⟨[⟨"2020-01-01".data, 0⟩], ()⟩
        [⟨"0bad.sql".data, none⟩, ⟨"2020-01-01.0.sql".data, none⟩]).err
      = some (MigErr.missing ⟨"2020-01-01".data, 0⟩) :=
  ⟨rfl, rfl⟩

/-- C5 (amended): a discovered script whose identifier is neither in
the ledger nor strictly greater than the latest recorded identifier is
never applied or skipped: when examined, the walk callback fails with
the out-of-order error, and the run as a whole returns an error —
though the error reported may be the missing-migration error when the
aborted walk leaves ledger entries unmatched. -/
theorem out_of_order_rejection {σ : Type} (db : DB σ) (files : List (MigFile σ))
    (f : MigFile σ) (hmem : f ∈ files)
    (hv : validName (baseName f.filepath) = true)
    (hb : natOfDigits (numStrOf (baseName f.filepath)) ≤ MAX_INT32)
    (hnotin : fId f ∉ db.ledger)
    (hle : ((initWalk db).latest).before (fId f) = false) :
    (RunMigrations db files).err ≠ none ∧
    (∀ st : WalkSt σ, findEntry st.set (fId f) = none →
      st.latest.before (fId f) = false →
      stepFile st f = .fail (.outOfOrderNew (fId f) st.latest) st) := by
  constructor
  · intro h
    rcases hw : walkFiles (initWalk db) files with ⟨st', e⟩
    rw [RunMigrations_eq db files st' e hw] at h
    cases hfu : firstUnmatched st'.set with
    | some m =>
      rw [hfu] at h
      simp at h
    | none =>
      rw [hfu] at h
      simp only at h
      rw [h] at hw
      rcases walk_success_mem_or_gt files (initWalk db) st' hw f hmem with hk | hgt
      · rw [initWalk_keys] at hk
        exact hnotin hk
      · exact Bool.false_ne_true (hle.symm.trans hgt)
  · intro st hfind hbef
    have hfind2 : findEntry st.set (parseName (baseName f.filepath)) = none := hfind
    have hbef2 : st.latest.before (parseName (baseName f.filepath)) = false := hbef
    simp [stepFile, hv, Nat.not_lt.mpr hb, hfind2, hbef2, fId]

theorem out_of_order_rejection_witness :
    (RunMigrations (σ := Unit) ⟨[⟨"2020-01-01".data, 2⟩], ()⟩
        [⟨"2020-01-01.002.sql".data, some (fun _ => some ())⟩,
         ⟨"2020-01-01.1.sql".data, some (fun _ => some ())⟩]).err ≠ none :=
  (out_of_order_rejection ⟨[⟨"2020-01-01".data, 2⟩], ()⟩
    [⟨"2020-01-01.002.sql".data, some (fun _ => some ())⟩,
     ⟨"2020-01-01.1.sql".data, some (fun _ => some ())⟩]
    ⟨"2020-01-01.1.sql".data, some (fun _ => some ())⟩
    (List.mem_cons_of_mem _ (List.mem_cons_self _ _))
    (by decide) (by decide) (by decide) (by decide)).1

/-- C5 counterexample: in the claim's own scenario — latest ledger
entry `(2020-02-01, 0)`, new chronologically-earlier script
`2020-01-15.0.sql` introduced beside the recorded one — the run fails,
but the error it returns is the missing-migration error (the aborted
walk never matched the ledger entry), not an out-of-order error. -/
theorem out_of_order_reported_counterexample :
    (RunMigrations (σ := Unit) ⟨[⟨"2020-02-01".data, 0⟩], ()⟩
        [⟨"2020-01-15.0.sql".data, none⟩, ⟨"2020-02-01.0.sql".data, none⟩]).err
      = some (MigErr.missing ⟨"2020-02-01".data, 0⟩) ∧
    ∀ x l, (RunMigrations (σ := Unit) ⟨[⟨"2020-02-01".data, 0⟩], ()⟩
        [⟨"2020-01-15.0.sql".data, none⟩, ⟨"2020-02-01.0.sql".data, none⟩]).err
      ≠ some (MigErr.outOfOrderNew x l) := by
  refine ⟨rfl, ?_⟩
  intro x l h
  have h0 : (RunMigrations (σ := Unit) ⟨[⟨"2020-02-01".data, 0⟩], ()⟩
      [⟨"2020-01-15.0.sql".data, none⟩, ⟨"2020-02-01.0.sql".data, none⟩]).err
      = some (MigErr.missing ⟨"2020-02-01".data, 0⟩) := rfl
  rw [h0] at h
  injection h with h2
  exact MigErr.noConfusion h2

/-- C4: idempotence — immediately after a successful migration run,
running the engine again with the same collection applies zero
migrations, succeeds, and leaves the store (ledger and all other
tables) unchanged. -/
theorem run_migrations_idempotent {σ : Type} (db : DB σ) (files : List (MigFile σ))
    (h : (RunMigrations db files).err = none) :
    RunMigrations (RunMigrations db files).db files
      = ⟨(RunMigrations db files).db, 0, none⟩ := by
  rcases hw : walkFiles (initWalk db) files with ⟨stF, e⟩
  have hrun := RunMigrations_eq db files stF e hw
  cases hfu : firstUnmatched stF.set with
  | some m =>
    rw [hrun, hfu] at h
    simp at h
  | none =>
    rw [hrun, hfu] at h
    simp only at h
    subst h
    rw [hrun, hfu]
    show RunMigrations stF.db files = ⟨stF.db, 0, none⟩
    obtain ⟨t, hled, hk⟩ := walk_ledger_keys files (initWalk db) stF hw
    have hk0 : keysOf (initWalk db).set = db.ledger := initWalk_keys db
    have hkeq : keysOf stF.set = stF.db.ledger := by
      rw [hk, hk0, hled]
      exact rfl
    have hmarked := firstUnmatched_none hfu
    have hfiles := walk_success_files files (initWalk db) stF hw
    have hnd := walk_success_nodup files (initWalk db) stF hw
    have hids : ∀ f ∈ files, fId f ∈ stF.db.ledger := by
      intro f hf
      rw [← hkeq]
      exact findEntry_some_mem (hfiles f hf).2.2
    have hsub : ∀ m ∈ stF.db.ledger, m ∈ files.map fId := by
      intro m hm
      rw [← hkeq] at hm
      obtain ⟨b, hb⟩ := findEntry_mem_isSome hm
      have hbt : b = true := hmarked (m, b) (findEntry_some_pair hb)
      subst hbt
      rcases walk_marked_sub files (initWalk db) stF none hw m hb with h0 | h0
      · exfalso
        rw [initWalk_set] at h0
        exact absurd (findEntry_mapFalse_b h0) (by simp)
      · exact h0
    have hskip_hyp : ∀ f ∈ files, validName (baseName f.filepath) = true ∧
        natOfDigits (numStrOf (baseName f.filepath)) ≤ MAX_INT32 ∧
        findEntry (initWalk stF.db).set (fId f) = some false ∧
        (initWalk stF.db).latest.before (fId f) = false := by
      intro f hf
      obtain ⟨hv, hb2, _⟩ := hfiles f hf
      refine ⟨hv, hb2, ?_, ?_⟩
      · rw [initWalk_set]
        exact findEntry_mapFalse (hids f hf)
      · exact initWalk_dom stF.db (fId f) (by rw [initWalk_keys]; exact hids f hf)
    have hskip := walk_skip_all files (initWalk stF.db) hskip_hyp hnd
    rw [RunMigrations_eq stF.db files _ none hskip]
    have hfu2 : firstUnmatched (markAll (initWalk stF.db).set (files.map fId)) = none := by
      apply firstUnmatched_markAll
      intro p hp
      apply hsub
      rw [initWalk_set] at hp
      obtain ⟨m0, hm0, hpe⟩ := List.mem_map.mp hp
      rw [← hpe]
      exact hm0
    rw [hfu2]
    exact rfl

theorem run_migrations_idempotent_witness :
    (RunMigrations (⟨[], 0⟩ : DB Nat)
        [⟨"2020-01-01.0.sql".data, some (fun s => some (s + 1))⟩]).err = none ∧
    RunMigrations (RunMigrations (⟨[], 0⟩ : DB Nat)
        [⟨"2020-01-01.0.sql".data, some (fun s => some (s + 1))⟩]).db
        [⟨"2020-01-01.0.sql".data, some (fun s => some (s + 1))⟩]
      = ⟨(RunMigrations (⟨[], 0⟩ : DB Nat)
          [⟨"2020-01-01.0.sql".data, some (fun s => some (s + 1))⟩]).db, 0, none⟩ :=
  ⟨rfl, run_migrations_idempotent _ _ rfl⟩

/-- C6: a well-formed, duplicate-free, ascending migration collection
whose scripts all execute successfully, applied to an empty store,
succeeds; the resulting ledger has exactly one entry per script in
order, the applied count is the number of scripts, and the chain's last
(maximum) identifier dominates every ledger entry. -/
theorem valid_collection_fresh_store {σ : Type} (app0 : σ) (files : List (MigFile σ))
    (hall : ∀ f ∈ files, validName (baseName f.filepath) = true ∧
      natOfDigits (numStrOf (baseName f.filepath)) ≤ MAX_INT32 ∧
      (∃ g : σ → Option σ, f.content = some g ∧ ∀ s, (g s).isSome = true))
    (hasc : ascFrom zeroMig (files.map fId) = true) :
    (RunMigrations (⟨[], app0⟩ : DB σ) files).err = none ∧
    (RunMigrations (⟨[], app0⟩ : DB σ) files).db.ledger = files.map fId ∧
    (RunMigrations (⟨[], app0⟩ : DB σ) files).performed = files.length ∧
    (∀ m ∈ (RunMigrations (⟨[], app0⟩ : DB σ) files).db.ledger,
      (lastD zeroMig (files.map fId)).before m = false) := by
  have happly_hyp : ∀ f ∈ files, validName (baseName f.filepath) = true ∧
      natOfDigits (numStrOf (baseName f.filepath)) ≤ MAX_INT32 ∧
      findEntry (initWalk (⟨[], app0⟩ : DB σ)).set (fId f) = none ∧
      (∃ g : σ → Option σ, f.content = some g ∧ ∀ s, (g s).isSome = true) := by
    intro f hf
    obtain ⟨hv, hb, hg⟩ := hall f hf
    exact ⟨hv, hb, rfl, hg⟩
  have hasc2 : ascFrom (initWalk (⟨[], app0⟩ : DB σ)).latest (files.map fId) = true := hasc
  obtain ⟨st', hw, hset, hlat, hled, hperf⟩ :=
    walk_apply_all files (initWalk ⟨[], app0⟩) happly_hyp hasc2
  rw [RunMigrations_eq _ files st' none hw]
  have hfu : firstUnmatched st'.set = none := by
    apply firstUnmatched_all_true
    intro p hp
    rw [hset] at hp
    have hp1 : p ∈ ([] : List (migration × Bool))
        ++ (files.map fId).map (fun m => (m, true)) := hp
    have hp2 : p ∈ (files.map fId).map (fun m => (m, true)) := by
      simpa using hp1
    obtain ⟨m0, _, hpe⟩ := List.mem_map.mp hp2
    rw [← hpe]
  rw [hfu]
  have hledeq : st'.db.ledger = files.map fId := by
    rw [hled]
    exact rfl
  refine ⟨rfl, hledeq, ?_, ?_⟩
  · show st'.performed = files.length
    rw [hperf]
    exact Nat.zero_add _
  · intro m hm
    have hm2 : m ∈ st'.db.ledger := hm
    rw [hledeq] at hm2
    exact (lastD_dom (files.map fId) zeroMig hasc).2 m hm2

theorem valid_collection_fresh_store_witness :
    (RunMigrations (⟨[], 0⟩ : DB Nat)
        [⟨"2020-01-01.0.sql".data, some (fun s => some (s + 1))⟩,
         ⟨"2020-01-02.0.sql".data, some (fun s => some (s + 1))⟩]).err = none :=
  (valid_collection_fresh_store 0
    [⟨"2020-01-01.0.sql".data, some (fun s => some (s + 1))⟩,
     ⟨"2020-01-02.0.sql".data, some (fun s => some (s + 1))⟩]
    (by
      intro f hf
      rcases List.mem_cons.mp hf with rfl | hf
      · exact ⟨by decide, by decide, ⟨fun s => some (s + 1), rfl, fun s => rfl⟩⟩
      · rcases List.mem_cons.mp hf with rfl | hf
        · exact ⟨by decide, by decide, ⟨fun s => some (s + 1), rfl, fun s => rfl⟩⟩
        · simp at hf)
    (by decide)).1

/-- C2: per-script atomicity.  A failing walk step never changes the
store or the applied count (the transaction rolls back), and in the
two-script scenario — first script succeeds, second fails — the run
returns the fatal execution error with only the first script's ledger
entry committed; rerunning with the second script fixed applies only
the second. -/
theorem migration_atomicity {σ : Type} (app0 app1 app2 : σ)
    (g1 g2 g2' : σ → Option σ)
    (h1 : g1 app0 = some app1) (h2 : g2 app1 = none) (h3 : g2' app1 = some app2) :
    (∀ (st st2 : WalkSt σ) (f : MigFile σ) (e : MigErr),
      stepFile st f = .fail e st2 → st2.db = st.db ∧ st2.performed = st.performed) ∧
    RunMigrations (⟨[], app0⟩ : DB σ)
        [⟨"2020-01-01.0.sql".data, some g1⟩, ⟨"2020-01-02.0.sql".data, some g2⟩]
      = ⟨⟨[⟨"2020-01-01".data, 0⟩], app1⟩, 1,
          some (.execErr "2020-01-02.0.sql".data)⟩ ∧
    RunMigrations (⟨[⟨"2020-01-01".data, 0⟩], app1⟩ : DB σ)
        [⟨"2020-01-01.0.sql".data, some g1⟩, ⟨"2020-01-02.0.sql".data, some g2'⟩]
      = ⟨⟨[⟨"2020-01-01".data, 0⟩, ⟨"2020-01-02".data, 0⟩], app2⟩, 1, none⟩ := by
  refine ⟨?_, ?_, ?_⟩
  · intro st st2 f e hs
    obtain ⟨hdb, hperf, _, _⟩ := stepFile_fail hs
    exact ⟨hdb, hperf⟩
  · have hinit : initWalk (⟨[], app0⟩ : DB σ) = ⟨[], zeroMig, ⟨[], app0⟩, 0⟩ := rfl
    have e1 : stepFile (⟨[], zeroMig, ⟨[], app0⟩, 0⟩ : WalkSt σ)
          ⟨"2020-01-01.0.sql".data, some g1⟩
        = .ok ⟨[(⟨"2020-01-01".data, 0⟩, true)], ⟨"2020-01-01".data, 0⟩,
            ⟨[⟨"2020-01-01".data, 0⟩], app1⟩, 1⟩ := by
      simp +decide [stepFile, h1, findEntry]
    have e2 : stepFile (⟨[(⟨"2020-01-01".data, 0⟩, true)], ⟨"2020-01-01".data, 0⟩,
          ⟨[⟨"2020-01-01".data, 0⟩], app1⟩, 1⟩ : WalkSt σ)
          ⟨"2020-01-02.0.sql".data, some g2⟩
        = .fail (.execErr "2020-01-02.0.sql".data)
            ⟨[(⟨"2020-01-01".data, 0⟩, true), (⟨"2020-01-02".data, 0⟩, true)],
              ⟨"2020-01-02".data, 0⟩, ⟨[⟨"2020-01-01".data, 0⟩], app1⟩, 1⟩ := by
      simp +decide [stepFile, h2, findEntry]
    simp +decide [RunMigrations, walkFiles, hinit, e1, e2, firstUnmatched]
  · have hinit : initWalk (⟨[⟨"2020-01-01".data, 0⟩], app1⟩ : DB σ)
        = ⟨[(⟨"2020-01-01".data, 0⟩, false)], ⟨"2020-01-01".data, 0⟩,
            ⟨[⟨"2020-01-01".data, 0⟩], app1⟩, 0⟩ := rfl
    have e1 : stepFile (⟨[(⟨"2020-01-01".data, 0⟩, false)], ⟨"2020-01-01".data, 0⟩,
          ⟨[⟨"2020-01-01".data, 0⟩], app1⟩, 0⟩ : WalkSt σ)
          ⟨"2020-01-01.0.sql".data, some g1⟩
        = .ok ⟨[(⟨"2020-01-01".data, 0⟩, true)], ⟨"2020-01-01".data, 0⟩,
            ⟨[⟨"2020-01-01".data, 0⟩], app1⟩, 0⟩ := by
      simp +decide [stepFile, findEntry, markDone]
    have e2 : stepFile (⟨[(⟨"2020-01-01".data, 0⟩, true)], ⟨"2020-01-01".data, 0⟩,
          ⟨[⟨"2020-01-01".data, 0⟩], app1⟩, 0⟩ : WalkSt σ)
          ⟨"2020-01-02.0.sql".data, some g2'⟩
        = .ok ⟨[(⟨"2020-01-01".data, 0⟩, true), (⟨"2020-01-02".data, 0⟩, true)],
            ⟨"2020-01-02".data, 0⟩,
            ⟨[⟨"2020-01-01".data, 0⟩, ⟨"2020-01-02".data, 0⟩], app2⟩, 1⟩ := by
      simp +decide [stepFile, h3, findEntry]
    simp +decide [RunMigrations, walkFiles, hinit, e1, e2, firstUnmatched]

theorem migration_atomicity_witness :
    RunMigrations (⟨[], 0⟩ : DB Nat)
        [⟨"2020-01-01.0.sql".data, some (fun _ => some 1)⟩,
         ⟨"2020-01-02.0.sql".data, some (fun _ => none)⟩]
      = ⟨⟨[⟨"2020-01-01".data, 0⟩], 1⟩, 1,
          some (.execErr "2020-01-02.0.sql".data)⟩ :=
  (migration_atomicity 0 1 2 (fun _ => some 1) (fun _ => none) (fun _ => some 2)
    rfl rfl rfl).2.1

/-! ## Note store lemmas -/

theorem findNote_append_none {db : List Note} {nm : String}
    (h : findNote db nm = none) (l2 : List Note) :
    findNote (db ++ l2) nm = findNote l2 nm := by
  induction db with
  | nil => simp
  | cons n r ih =>
    show (if n.name = nm then some n else findNote (r ++ l2) nm) = _
    have h2 : (if n.name = nm then some n else findNote r nm) = none := h
    by_cases hn : n.name = nm
    · rw [if_pos hn] at h2
      exact absurd h2 (by simp)
    · rw [if_neg hn] at h2
      rw [if_neg hn]
      exact ih h2

theorem findNote_map {fN : Note → Note} (hf : ∀ n, (fN n).name = n.name) :
    ∀ (l : List Note) (nm : String),
    findNote (l.map fN) nm = Option.map fN (findNote l nm) := by
  intro l nm
  induction l with
  | nil => rfl
  | cons n r ih =>
    show (if (fN n).name = nm then some (fN n) else findNote (r.map fN) nm) = _
    rw [hf n]
    by_cases hn : n.name = nm
    · rw [if_pos hn]
      show _ = Option.map fN (if n.name = nm then some n else findNote r nm)
      rw [if_pos hn]
      rfl
    · rw [if_neg hn]
      show _ = Option.map fN (if n.name = nm then some n else findNote r nm)
      rw [if_neg hn]
      exact ih

/-- C8 (evaluation at the failing input): with notes `a`, `b`, `c`
created at times 1 < 2 < 3, `getLatestNotes 2` — embedding `select
(name) from "note" order by create_time asc limit 2` — returns
`["a", "b"]`, the two oldest notes, and omits `c`, the most recently
created one, contradicting the function's own "most recently-created
notes" contract. -/
theorem get_latest_notes_returns_oldest :
    getLatestNotes [⟨"a", "xa", 1, 1⟩, ⟨"b", "xb", 2, 2⟩, ⟨"c", "xc", 3, 3⟩] 2
      = ["a", "b"] ∧
    "c" ∉ getLatestNotes [⟨"a", "xa", 1, 1⟩, ⟨"b", "xb", 2, 2⟩, ⟨"c", "xc", 3, 3⟩] 2 := by
  decide

/-- C9: note-store round trip and no-clobber: on a store without `"a"`,
`set("a","hello",clobber=false)` returns `CREATED`; `get("a")` then
yields `("hello", found)`; a second non-clobbering set returns
`NO_CLOBBER` and leaves the store untouched (the body still reads
`"hello"`); `set("a","bye",clobber=true)` returns `UPDATED`, after
which `get("a")` yields `("bye", found)`. -/
theorem note_store_round_trip (db : List Note) (t1 t2 t3 t4 t5 t6 : Nat) (body2 : String)
    (h : findNote db "a" = none) :
    (setNote db t1 "a" "hello" false).1 = CREATED ∧
    (getNote (setNote db t1 "a" "hello" false).2 t2 "a").1 = some "hello" ∧
    (getNote (setNote db t1 "a" "hello" false).2 t2 "a").2.1 = true ∧
    setNote (getNote (setNote db t1 "a" "hello" false).2 t2 "a").2.2 t3 "a" body2 false
      = (NO_CLOBBER, (getNote (setNote db t1 "a" "hello" false).2 t2 "a").2.2) ∧
    (getNote (getNote (setNote db t1 "a" "hello" false).2 t2 "a").2.2 t4 "a").1
      = some "hello" ∧
    (setNote (getNote (setNote db t1 "a" "hello" false).2 t2 "a").2.2 t5 "a" "bye" true).1
      = UPDATED ∧
    (getNote (setNote (getNote (setNote db t1 "a" "hello" false).2 t2 "a").2.2
        t5 "a" "bye" true).2 t6 "a").1 = some "bye" ∧
    (getNote (setNote (getNote (setNote db t1 "a" "hello" false).2 t2 "a").2.2
        t5 "a" "bye" true).2 t6 "a").2.1 = true := by
  have hset1 : setNote db t1 "a" "hello" false
      = (CREATED, db ++ [(⟨"a", "hello", t1, t1⟩ : Note)]) := by
    unfold setNote
    rw [h]
  have hf1 : findNote (db ++ [(⟨"a", "hello", t1, t1⟩ : Note)]) "a"
      = some (⟨"a", "hello", t1, t1⟩ : Note) := by
    rw [findNote_append_none h]
    simp [findNote]
  have hget1 : getNote (db ++ [(⟨"a", "hello", t1, t1⟩ : Note)]) t2 "a"
      = (some "hello", true,
          (db ++ [(⟨"a", "hello", t1, t1⟩ : Note)]).map
            (fun n : Note => if n.name = "a" then { n with last_viewed := t2 } else n)) := by
    unfold getNote
    rw [hf1]
  have hname2 : ∀ n : Note,
      ((fun n : Note => if n.name = "a" then { n with last_viewed := t2 } else n) n).name
        = n.name := by
    intro n
    by_cases hn : n.name = "a" <;> simp [hn]
  have hf2 : findNote ((db ++ [(⟨"a", "hello", t1, t1⟩ : Note)]).map
        (fun n : Note => if n.name = "a" then { n with last_viewed := t2 } else n)) "a"
      = some (⟨"a", "hello", t1, t2⟩ : Note) := by
    rw [findNote_map hname2, hf1]
    simp
  have hset2 : setNote ((db ++ [(⟨"a", "hello", t1, t1⟩ : Note)]).map
        (fun n : Note => if n.name = "a" then { n with last_viewed := t2 } else n))
        t3 "a" body2 false
      = (NO_CLOBBER, (db ++ [(⟨"a", "hello", t1, t1⟩ : Note)]).map
          (fun n : Note => if n.name = "a" then { n with last_viewed := t2 } else n)) := by
    unfold setNote
    rw [hf2]
    rfl
  have hget2 : (getNote ((db ++ [(⟨"a", "hello", t1, t1⟩ : Note)]).map
        (fun n : Note => if n.name = "a" then { n with last_viewed := t2 } else n)) t4 "a").1
      = some "hello" := by
    unfold getNote
    rw [hf2]
  have hset3 : setNote ((db ++ [(⟨"a", "hello", t1, t1⟩ : Note)]).map
        (fun n : Note => if n.name = "a" then { n with last_viewed := t2 } else n))
        t5 "a" "bye" true
      = (UPDATED, ((db ++ [(⟨"a", "hello", t1, t1⟩ : Note)]).map
          (fun n : Note => if n.name = "a" then { n with last_viewed := t2 } else n)).map
          (fun n : Note => if n.name = "a" then { n with body := "bye" } else n)) := by
    unfold setNote
    rw [hf2]
    rfl
  have hname3 : ∀ n : Note,
      ((fun n : Note => if n.name = "a" then { n with body := "bye" } else n) n).name
        = n.name := by
    intro n
    by_cases hn : n.name = "a" <;> simp [hn]
  have hf3 : findNote (((db ++ [(⟨"a", "hello", t1, t1⟩ : Note)]).map
        (fun n : Note => if n.name = "a" then { n with last_viewed := t2 } else n)).map
        (fun n : Note => if n.name = "a" then { n with body := "bye" } else n)) "a"
      = some (⟨"a", "bye", t1, t2⟩ : Note) := by
    rw [findNote_map hname3, hf2]
    simp
  have hget3 : (getNote (((db ++ [(⟨"a", "hello", t1, t1⟩ : Note)]).map
        (fun n : Note => if n.name = "a" then { n with last_viewed := t2 } else n)).map
        (fun n : Note => if n.name = "a" then { n with body := "bye" } else n)) t6 "a").1
      = some "bye" := by
    unfold getNote
    rw [hf3]
  have hget3b : (getNote (((db ++ [(⟨"a", "hello", t1, t1⟩ : Note)]).map
        (fun n : Note => if n.name = "a" then { n with last_viewed := t2 } else n)).map
        (fun n : Note => if n.name = "a" then { n with body := "bye" } else n)) t6 "a").2.1
      = true := by
    unfold getNote
    rw [hf3]
  refine ⟨by rw [hset1], ?_, ?_, ?_, ?_, ?_, ?_, ?_⟩
  · rw [hset1, hget1]
  · rw [hset1, hget1]
  · rw [hset1, hget1]
    exact hset2
  · rw [hset1, hget1]
    exact hget2
  · rw [hset1, hget1, hset3]
  · rw [hset1, hget1, hset3]
    exact hget3
  · rw [hset1, hget1, hset3]
    exact hget3b

theorem note_store_round_trip_witness :
    (setNote [] 1 "a" "hello" false).1 = CREATED ∧
    (getNote (setNote [] 1 "a" "hello" false).2 2 "a").1 = some "hello" ∧
    (getNote (setNote [] 1 "a" "hello" false).2 2 "a").2.1 = true ∧
    setNote (getNote (setNote [] 1 "a" "hello" false).2 2 "a").2.2 3 "a" "zzz" false
      = (NO_CLOBBER, (getNote (setNote [] 1 "a" "hello" false).2 2 "a").2.2) ∧
    (getNote (getNote (setNote [] 1 "a" "hello" false).2 2 "a").2.2 4 "a").1
      = some "hello" ∧
    (setNote (getNote (setNote [] 1 "a" "hello" false).2 2 "a").2.2 5 "a" "bye" true).1
      = UPDATED ∧
    (getNote (setNote (getNote (setNote [] 1 "a" "hello" false).2 2 "a").2.2
        5 "a" "bye" true).2 6 "a").1 = some "bye" ∧
    (getNote (setNote (getNote (setNote [] 1 "a" "hello" false).2 2 "a").2.2
        5 "a" "bye" true).2 6 "a").2.1 = true :=
  note_store_round_trip [] 1 2 3 4 5 6 "zzz" rfl
